import Mathlib

/-!
Verification of the srt.py subtitle editor core against its design
specification.

The development shallowly embeds the program: Python strings become
`List Char`, Python integers become `Int` (arbitrary precision, as in
Python), a `Timecode` is identified with its millisecond count `ms : Int`
(the sole attribute of the Python class), and each fallible Python
operation returns `Except PyErr _` where `PyErr` enumerates the exception
classes the program can raise.  Python float factors are modelled by exact
rationals; every property proved about them only involves products with
zero, where IEEE arithmetic and exact arithmetic agree exactly.
-/

/-- Exception classes observable from the program.  The constructors
`indexError`, `valueError`, `typeError` and `zeroDivisionError` are the
Python builtins; `invalidTime` and `invalidTimestring` are the classes
defined at src/srt.py lines 105 and 114 (the latter subclasses the
former); `usageError` is the `Usage` class at line 465.  The constructors
`parseError` and `degenerateSync` come from the error taxonomy of the
specification only: no such exception class exists anywhere in the code,
and no definition below ever produces them. -/
inductive PyErr where
  | indexError
  | valueError
  | typeError
  | zeroDivisionError
  | invalidTime
  | invalidTimestring
  | usageError
  | parseError
  | degenerateSync
  deriving DecidableEq

instance {ε α : Type} [DecidableEq ε] [DecidableEq α] :
    DecidableEq (Except ε α) := fun x y =>
  match x, y with
  | .ok a, .ok b =>
    if h : a = b then isTrue (by rw [h])
    else isFalse (by intro he; cases he; exact h rfl)
  | .ok _, .error _ => isFalse (by intro h; cases h)
  | .error _, .ok _ => isFalse (by intro h; cases h)
  | .error a, .error b =>
    if h : a = b then isTrue (by rw [h])
    else isFalse (by intro he; cases he; exact h rfl)

/-- Coercion from a Lean string literal to the character list that models
a Python string. -/
def chars (s : String) : List Char := s.data

/-- Test whether the first list is a leading segment of the second,
comparing characters one by one. -/
def leadMatch : List Char → List Char → Bool
  | [], _ => true
  | _ :: _, [] => false
  | a :: as, b :: bs => a == b && leadMatch as bs

/-- Test whether the pattern occurs as a contiguous segment anywhere in
the string (at any suffix). -/
def occurs (pat : List Char) : List Char → Bool
  | [] => leadMatch pat []
  | c :: cs => leadMatch pat (c :: cs) || occurs pat cs

/-- Fueled worker for `pySplit`.  The fuel is consumed one unit per
character examined, so `s.length` units always suffice; the fuel
presentation keeps the definition structurally recursive and hence
reducible by the kernel on concrete inputs. -/
def pySplitGo (sep : List Char) : Nat → List Char → List (List Char)
  | _, [] => [[]]
  | 0, s => [s]
  | fuel + 1, c :: cs =>
    if 0 < sep.length ∧ leadMatch sep (c :: cs) = true then
      [] :: pySplitGo sep fuel ((c :: cs).drop sep.length)
    else
      match pySplitGo sep fuel cs with
      | [] => [[c]]
      | t :: ts => (c :: t) :: ts

/-- Python `s.split(sep)` for a nonempty separator: scan left to right,
cutting at each non-overlapping occurrence of `sep`.  Always returns at
least one piece; `"".split(sep) == [""]`. -/
def pySplit (sep s : List Char) : List (List Char) :=
  pySplitGo sep s.length s

/-- Python `sep.join(pieces)`. -/
def joinWith (sep : List Char) : List (List Char) → List Char
  | [] => []
  | [b] => b
  | b :: bs => b ++ sep ++ joinWith sep bs

/-- The whitespace characters of Python 2 `string.whitespace`: space,
tab, newline, carriage return, vertical tab and form feed.  This is the
set removed by `str.strip()` and skipped by `int()`. -/
def pyWhitespace (c : Char) : Bool :=
  c = ' ' || c = '\t' || c = '\n' || c = '\r' || c = '\x0b' || c = '\x0c'

/-- Python `s.strip()`: remove whitespace characters from both ends. -/
def pyStrip (s : List Char) : List Char :=
  ((s.dropWhile pyWhitespace).reverse.dropWhile pyWhitespace).reverse

/-- Python `s.replace(old, new)` for a nonempty `old`: replace every
non-overlapping occurrence, scanning left to right.  This is exactly
split followed by join. -/
def pyReplace (pat rep s : List Char) : List Char :=
  joinWith rep (pySplit pat s)

/-- Decimal digit character for a value below ten. -/
def digitChar (n : Nat) : Char := Char.ofNat (48 + n)

/-- Fueled worker for `natToDigits`; fuel `n + 1` always suffices since
the argument strictly decreases under division by ten. -/
def natDigitsGo : Nat → Nat → List Char
  | 0, _ => []
  | fuel + 1, n =>
    if n < 10 then [digitChar n]
    else natDigitsGo fuel (n / 10) ++ [digitChar (n % 10)]

/-- Decimal representation of a natural number, most significant digit
first, as produced by Python `"%d" % n` for a non-negative `n`. -/
def natToDigits (n : Nat) : List Char := natDigitsGo (n + 1) n

/-- Left-pad a digit string with zeros to width `w`, as Python
`"%0wd"` does; numbers with more than `w` digits are not truncated. -/
def padLeft (w : Nat) (l : List Char) : List Char :=
  List.replicate (w - l.length) '0' ++ l

/-- Numeric value of a string of decimal digit characters. -/
def digitsToNat (l : List Char) : Nat :=
  l.foldl (fun a c => 10 * a + (c.toNat - 48)) 0

/-- Python `int(s, 10)`: strip surrounding whitespace, allow one optional
leading sign, then require one or more decimal digits; anything else
raises `ValueError`. -/
def pyInt (s : List Char) : Except PyErr Int :=
  match pyStrip s with
  | [] => .error .valueError
  | c :: ds =>
    if c = '-' then
      if ds ≠ [] ∧ ds.all Char.isDigit then .ok (-(digitsToNat ds : Int))
      else .error .valueError
    else if c = '+' then
      if ds ≠ [] ∧ ds.all Char.isDigit then .ok ((digitsToNat ds : Int))
      else .error .valueError
    else
      if (c :: ds).all Char.isDigit then .ok ((digitsToNat (c :: ds) : Int))
      else .error .valueError

/-- Python `str(i)` for an integer. -/
def intStr (i : Int) : List Char :=
  if i < 0 then '-' :: natToDigits i.natAbs else natToDigits i.natAbs

/-- Timecode.stringify (src/srt.py lines 50 to 70): take the absolute
value, peel off milliseconds, seconds and minutes by division, and format
as `HH:MM:SS,mmm` with a sign prefix for negative input.  Hours use
Python `"%02d"`: padded to two digits but unbounded above. -/
def stringify (total : Int) : List Char :=
  let negative := total < 0
  let t := total.natAbs
  let milliseconds := t % 1000
  let t := t / 1000
  let seconds := t % 60
  let t := t / 60
  let minutes := t % 60
  let hours := t / 60
  (if negative then ['-'] else []) ++
    padLeft 2 (natToDigits hours) ++ ':' ::
    padLeft 2 (natToDigits minutes) ++ ':' ::
    padLeft 2 (natToDigits seconds) ++ ',' ::
    padLeft 3 (natToDigits milliseconds)

/-- Shape selection step of Timecode parsing (src/srt.py lines 20 to 37):
pick the hours, minutes and seconds strings purely by the length of the
(sign-stripped) input; tuple unpacking of a `split(':')` with the wrong
number of pieces raises `ValueError`, and an unsupported length raises
`InvalidTimestringException`. -/
def getHMS (length : Nat) (time : List Char) :
    Except PyErr (List Char × List Char × List Char) :=
  if length = 12 then
    match pySplit [':'] time with
    | [h, m, s] => .ok (h, m, s)
    | _ => .error .valueError
  else if length = 9 then
    match pySplit [':'] time with
    | [m, s] => .ok (['0'], m, s)
    | _ => .error .valueError
  else if length = 6 then .ok (['0'], ['0'], time)
  else if length = 5 then
    match pySplit [':'] time with
    | [m, s] => .ok (['0'], m, s ++ [',', '0', '0', '0'])
    | _ => .error .valueError
  else if length ≤ 3 ∧ 0 < length then .ok (['0'], ['0'], '0' :: ',' :: time)
  else .error .invalidTimestring

/-- Sign-independent part of the string branch of Timecode.__init__
(src/srt.py lines 20 to 44): the shape is selected by length via
`getHMS`; the seconds string is split at the comma into seconds and
milliseconds (`ValueError` unless exactly two pieces); each component is
parsed with `int(_, 10)` in source order (seconds, minutes, hours,
milliseconds) and combined into a millisecond count. -/
def parseUnsigned (time : List Char) : Except PyErr Int :=
  (getHMS time.length time).bind fun hms =>
    match pySplit [','] hms.2.2 with
    | [sec, ms] =>
      (pyInt sec).bind fun secV =>
        (pyInt hms.2.1).bind fun minV =>
          (pyInt hms.1).bind fun hrV =>
            (pyInt ms).bind fun msV =>
              .ok (secV * 1000 + minV * 1000 * 60 + hrV * 1000 * 60 * 60
                    + msV)
    | _ => .error .valueError

/-- String branch of Timecode.__init__ (src/srt.py lines 13 to 45):
reading `time[0]` of an empty string raises the Python builtin
`IndexError`; an optional leading minus sign is stripped and remembered;
the sign-stripped remainder is parsed by `parseUnsigned` and the result
multiplied by the sign. -/
def parseTimecode (time0 : List Char) : Except PyErr Int :=
  match time0 with
  | [] => .error .indexError
  | c0 :: rest =>
    let sign : Int := if c0 = '-' then -1 else 1
    let time := if c0 = '-' then rest else c0 :: rest
    (parseUnsigned time).bind fun v => .ok (v * sign)

/-- One subtitle record, the dictionary built per block in
SubRip.__init__ (src/srt.py lines 129 to 134).  The `start` and `end`
Timecodes are identified with their millisecond counts; the Python key
`end` is spelled `endTime` because `end` is a Lean keyword. -/
structure SubEntry where
  index : Int
  start : Int
  endTime : Int
  text : List Char
  deriving DecidableEq

/-- The list comprehension `[Timecode(p.strip()) for p in parts]` of
src/srt.py line 133: strip and Timecode-parse every piece, left to
right, propagating the first failure. -/
def mapTimecodes : List (List Char) → Except PyErr (List Int)
  | [] => .ok []
  | p :: ps =>
    (parseTimecode (pyStrip p)).bind fun t =>
      (mapTimecodes ps).bind fun ts => .ok (t :: ts)

/-- Parse one blank-line-delimited block (loop body of SubRip.__init__,
src/srt.py lines 127 to 136).  The block is split at newlines; the dict
literal evaluates `int(each[0], 10)` and `"\n".join(each[2:])` first, so
a non-integer first line raises `ValueError` before anything else; then
`each[1]` raises `IndexError` when the block has fewer than two lines;
the timestamp line is split at the literal `-->`, each side is stripped
and parsed as a Timecode (left to right), and unpacking into
`start, end` raises `ValueError` unless exactly two pieces result. -/
def parseEntry (block : List Char) : Except PyErr SubEntry :=
  let lines := pySplit ['\n'] block
  (pyInt (lines.headD [])).bind fun index =>
    let text := joinWith ['\n'] (lines.drop 2)
    match lines with
    | _ :: line1 :: _ =>
      (mapTimecodes (pySplit ['-', '-', '>'] line1)).bind fun tcs =>
        match tcs with
        | [start, e] => .ok ⟨index, start, e, text⟩
        | _ => .error .valueError
    | _ => .error .indexError

/-- Parse each block in order, propagating the first error, as the
`for each in ...: self.append(entry)` loop does. -/
def parseBlocks : List (List Char) → Except PyErr (List SubEntry)
  | [] => .ok []
  | b :: bs =>
    (parseEntry b).bind fun e => (parseBlocks bs).bind fun es => .ok (e :: es)

/-- SubRip.__init__ (src/srt.py lines 126 to 136): strip the raw text,
normalize CRLF to LF, split at blank lines, and parse every block. -/
def parseDoc (rawdata : List Char) : Except PyErr (List SubEntry) :=
  parseBlocks (pySplit ['\n', '\n']
    (pyReplace ['\r', '\n'] ['\n'] (pyStrip rawdata)))

/-- Rendering of one entry inside SubRip.__str__ (src/srt.py line 140):
`"%(index)s\n%(start)s --> %(end)s\n%(text)s"`, with the Timecodes
rendered by `stringify`. -/
def entryStr (e : SubEntry) : List Char :=
  intStr e.index ++ '\n' :: stringify e.start ++
    [' ', '-', '-', '>', ' '] ++ stringify e.endTime ++ '\n' :: e.text

/-- SubRip.__str__ (src/srt.py lines 138 to 141): render every entry and
join with one blank line. -/
def serializeDoc (d : List SubEntry) : List Char :=
  joinWith ['\n', '\n'] (d.map entryStr)

/-- SubRip.shift_time_by (src/srt.py lines 143 to 147): add the given
Timecode to every start and end. -/
def shift_time_by (time : Int) (d : List SubEntry) : List SubEntry :=
  d.map fun e => { e with start := e.start + time, endTime := e.endTime + time }

/-- Truncation of a rational toward zero, the behaviour of Python
`int(float)` on the product computed by multiply_time_by. -/
def intTrunc (q : ℚ) : Int :=
  if q < 0 then -((((-q).num.toNat / (-q).den : Nat) : Int))
  else ((q.num.toNat / q.den : Nat) : Int)

/-- SubRip.multiply_time_by (src/srt.py lines 149 to 153): rebuild every
start and end from `int(ms * factor)`.  The Python float factor is
modelled by an exact rational; the claims proved below only evaluate the
product at zero, where float and rational arithmetic agree exactly. -/
def multiply_time_by (factor : ℚ) (d : List SubEntry) : List SubEntry :=
  d.map fun e =>
    { e with start := intTrunc ((e.start : ℚ) * factor),
             endTime := intTrunc ((e.endTime : ℚ) * factor) }

/-- SubRip.shift_index_by (src/srt.py lines 155 to 158). -/
def shift_index_by (n : Int) (d : List SubEntry) : List SubEntry :=
  d.map fun e => { e with index := e.index + n }

/-- SubRip.resize (src/srt.py lines 160 to 164): shift by the negated
anchor, scale, and shift back, in that order. -/
def resize (anchor : Int) (factor : ℚ) (d : List SubEntry) : List SubEntry :=
  shift_time_by anchor (multiply_time_by factor (shift_time_by (-anchor) d))

/-- Worker for `reindex`, assigning consecutive indices from `i`. -/
def reindexFrom (i : Int) : List SubEntry → List SubEntry
  | [] => []
  | e :: es => { e with index := i } :: reindexFrom (i + 1) es

/-- SubRip.reindex (src/srt.py lines 166 to 169): the loop sets entry
`i` (zero-based) to index `i + 1`. -/
def reindex (d : List SubEntry) : List SubEntry := reindexFrom 1 d

/-- Core of SRT.sync for one file (src/srt.py lines 399 to 404): subtract
the anchor from target and goal, derive the factor by float division, and
resize.  A zero denominator, which happens exactly when target equals
anchor, raises the Python builtin `ZeroDivisionError`; no DegenerateSync
error exists in the code.  For a nonzero denominator the factor is the
exact quotient. -/
def sync (d : List SubEntry) (target goal anchor : Int) :
    Except PyErr (List SubEntry) :=
  let t := target - anchor
  let g := goal - anchor
  if t = 0 then .error .zeroDivisionError
  else .ok (resize anchor ((g : ℚ) / (t : ℚ)) d)

/-- Loop of SRT.merge (src/srt.py lines 306 to 311): shift each
subsequent document by the running offset, append its entries to the
base, and advance the offset to the post-shift end of its last entry;
`sub[-1]` on an empty document raises `IndexError`.  After the loop the
combined document is reindexed. -/
def mergeGo (base : List SubEntry) (offset : Int) :
    List (List SubEntry) → Except PyErr (List SubEntry)
  | [] => .ok (reindex base)
  | sub :: rest =>
    let s := shift_time_by offset sub
    match s.getLast? with
    | none => .error .indexError
    | some e => mergeGo (base ++ s) e.endTime rest

/-- SRT.merge core (src/srt.py lines 295 to 311): fewer than two
documents raises `Usage`; otherwise the first document is the base, the
initial offset is the end of its last entry (`IndexError` when empty), and
loop `mergeGo` chains the rest. -/
def merge (docs : List (List SubEntry)) : Except PyErr (List SubEntry) :=
  if docs.length < 2 then .error .usageError
  else
    match docs with
    | [] => .error .usageError
    | base :: subs =>
      match base.getLast? with
      | none => .error .indexError
      | some e => mergeGo base e.endTime subs

/-- A Python runtime value appearing as the right operand of a Timecode
arithmetic operator: either another Timecode, or some non-Timecode value
(an int, a string, or None). -/
inductive PyVal where
  | timecode (ms : Int)
  | intVal (n : Int)
  | strVal (s : List Char)
  | noneVal
  deriving DecidableEq

/-- The checktype decorator (src/srt.py lines 79 to 85): raise
`TypeError` unless the other operand is a Timecode, then run the
operation on the two millisecond counts. -/
def checktype (f : Int → Int → Except PyErr Int) (self : Int)
    (other : PyVal) : Except PyErr Int :=
  match other with
  | .timecode m => f self m
  | _ => .error .typeError

/-- Timecode.__add__ (src/srt.py line 88): a new Timecode holding the
exact integer sum. -/
def tcAdd (self : Int) (other : PyVal) : Except PyErr Int :=
  checktype (fun a b => .ok (a + b)) self other

/-- Timecode.__sub__ (src/srt.py line 91): a new Timecode holding the
exact integer difference. -/
def tcSub (self : Int) (other : PyVal) : Except PyErr Int :=
  checktype (fun a b => .ok (a - b)) self other

/-- Timecode.__mul__ (src/srt.py line 94). -/
def tcMul (self : Int) (other : PyVal) : Except PyErr Int :=
  checktype (fun a b => .ok (a * b)) self other

/-- Timecode.__div__ (src/srt.py line 97): Python 2 integer division
floors; dividing by a zero Timecode raises `ZeroDivisionError`. -/
def tcDiv (self : Int) (other : PyVal) : Except PyErr Int :=
  checktype
    (fun a b => if b = 0 then .error .zeroDivisionError else .ok (Int.fdiv a b))
    self other

/-- Digit block of `stringify` after the optional sign: the millisecond
count is decomposed exactly as by the sequential divisions of the
source. -/
def bodyStr (t : Nat) : List Char :=
  padLeft 2 (natToDigits (t / 1000 / 60 / 60)) ++ ':' ::
    padLeft 2 (natToDigits (t / 1000 / 60 % 60)) ++ ':' ::
    padLeft 2 (natToDigits (t / 1000 % 60)) ++ ',' ::
    padLeft 3 (natToDigits (t % 1000))

/-- Conditions on an entry text under which serialization is exactly
invertible: nonempty, free of carriage returns and of two consecutive
newlines, not starting with a newline, and not ending in whitespace. -/
def okText (t : List Char) : Bool :=
  (!t.isEmpty) && (t.all fun c => !(c == '\r')) &&
    (!occurs ['\n', '\n'] t) && (!(t.head? == some '\n')) &&
    (match t.getLast? with
     | some c => !pyWhitespace c
     | none => true)

/-- Conditions on an entry under which serialization is exactly
invertible: a good text and timecodes below one hundred hours in
magnitude, so that their stringified form is twelve characters long. -/
def okEntry (e : SubEntry) : Prop :=
  okText e.text = true ∧ e.start.natAbs < 360000000 ∧
    e.endTime.natAbs < 360000000

/-- End timecode of the last entry, the `doc[-1]["end"]` of the merge
description; the default value zero is never reached on the nonempty
documents the merge claim quantifies over. -/
def lastEndD (d : List SubEntry) : Int :=
  match d.getLast? with
  | some e => e.endTime
  | none => 0

/-- Modelled from the claim wording for merge: shift each subsequent
document by the running offset, concatenate, and advance the offset to
the post-shift end of the last entry of that document. -/
def chainFrom (offset : Int) : List (List SubEntry) → List SubEntry
  | [] => []
  | sub :: rest =>
    let s := shift_time_by offset sub
    s ++ chainFrom (lastEndD s) rest

/-- Modelled from the claim wording for merge: the first document is the
base, the initial offset is the end of its last entry, the remaining
documents are chained on, and the result is reindexed from one. -/
def mergeSpec : List (List SubEntry) → List SubEntry
  | [] => []
  | base :: subs => reindex (base ++ chainFrom (lastEndD base) subs)

/-! Basic facts about `leadMatch`, `occurs` and `pySplit`. -/

theorem leadMatch_nil_false {p : List Char} (h : p ≠ []) :
    leadMatch p [] = false := by
  cases p with
  | nil => exact absurd rfl h
  | cons a as => rfl

theorem leadMatch_append_self (p t : List Char) :
    leadMatch p (p ++ t) = true := by
  induction p with
  | nil => rfl
  | cons a as ih => simp [leadMatch, ih]

theorem leadMatch_restores {p s : List Char} (h : leadMatch p s = true) :
    p ++ s.drop p.length = s := by
  induction p generalizing s with
  | nil => simp
  | cons a as ih =>
    cases s with
    | nil => simp [leadMatch] at h
    | cons b bs =>
      simp only [leadMatch, Bool.and_eq_true, beq_iff_eq] at h
      simp [h.1, ih h.2]

theorem leadMatch_of_append {p q s : List Char}
    (h : leadMatch (p ++ q) s = true) : leadMatch p s = true := by
  induction p generalizing s with
  | nil => rfl
  | cons a as ih =>
    cases s with
    | nil => simp [leadMatch] at h
    | cons b bs =>
      simp only [List.cons_append, leadMatch, Bool.and_eq_true] at h ⊢
      exact ⟨h.1, ih h.2⟩

theorem leadMatch_append_left {p u : List Char} (v : List Char)
    (h : p.length ≤ u.length) : leadMatch p (u ++ v) = leadMatch p u := by
  induction p generalizing u with
  | nil => rfl
  | cons a as ih =>
    cases u with
    | nil => simp at h
    | cons b bs =>
      simp only [List.length_cons, Nat.add_le_add_iff_right] at h
      simp [leadMatch, ih h]

theorem occurs_false_drop {pat s : List Char} (h : occurs pat s = false) :
    ∀ k, leadMatch pat (s.drop k) = false := by
  induction s with
  | nil => intro k; simpa [occurs] using h
  | cons c cs ih =>
    simp only [occurs, Bool.or_eq_false_iff] at h
    intro k
    cases k with
    | zero => exact h.1
    | succ k => exact ih h.2 k

theorem pySplitGo_fuel (sep : List Char) :
    ∀ f g s, s.length ≤ f → s.length ≤ g →
      pySplitGo sep f s = pySplitGo sep g s := by
  intro f
  induction f using Nat.strong_induction_on with
  | _ f ih =>
    intro g s hf hg
    cases s with
    | nil => cases f <;> cases g <;> rfl
    | cons c cs =>
      cases f with
      | zero => simp at hf
      | succ f =>
        cases g with
        | zero => simp at hg
        | succ g =>
          simp only [pySplitGo]
          by_cases h : 0 < sep.length ∧ leadMatch sep (c :: cs) = true
          · simp only [if_pos h]
            obtain ⟨hsl, -⟩ := h
            have hd : ((c :: cs).drop sep.length).length ≤ f := by
              simp only [List.length_drop, List.length_cons]
              simp only [List.length_cons] at hf
              omega
            have hd' : ((c :: cs).drop sep.length).length ≤ g := by
              simp only [List.length_drop, List.length_cons]
              simp only [List.length_cons] at hg
              omega
            rw [ih f (Nat.lt_succ_self f) g _ hd hd']
          · simp only [if_neg h]
            have hc : cs.length ≤ f := by
              simp only [List.length_cons] at hf; omega
            have hc' : cs.length ≤ g := by
              simp only [List.length_cons] at hg; omega
            rw [ih f (Nat.lt_succ_self f) g cs hc hc']

theorem pySplit_nil (sep : List Char) : pySplit sep [] = [[]] := rfl

theorem pySplit_cons (sep : List Char) (c : Char) (cs : List Char) :
    pySplit sep (c :: cs) =
      if 0 < sep.length ∧ leadMatch sep (c :: cs) = true then
        [] :: pySplit sep ((c :: cs).drop sep.length)
      else
        match pySplit sep cs with
        | [] => [[c]]
        | t :: ts => (c :: t) :: ts := by
  show pySplitGo sep (cs.length + 1) (c :: cs) = _
  simp only [pySplitGo]
  by_cases h : 0 < sep.length ∧ leadMatch sep (c :: cs) = true
  · simp only [if_pos h]
    rw [pySplitGo_fuel sep cs.length ((c :: cs).drop sep.length).length]
    · rfl
    · simp only [List.length_drop, List.length_cons]; omega
    · exact Nat.le_refl _
  · simp only [if_neg h]
    rfl

theorem pySplit_ne_nil (sep s : List Char) : pySplit sep s ≠ [] := by
  induction s with
  | nil => simp [pySplit_nil]
  | cons c cs ih =>
    rw [pySplit_cons]
    by_cases h : 0 < sep.length ∧ leadMatch sep (c :: cs) = true
    · simp [h]
    · simp only [if_neg h]
      cases hs : pySplit sep cs with
      | nil => simp
      | cons t ts => simp

theorem pySplit_no_occur {sep s : List Char}
    (h : occurs sep s = false) : pySplit sep s = [s] := by
  induction s with
  | nil => exact pySplit_nil sep
  | cons c cs ih =>
    simp only [occurs, Bool.or_eq_false_iff] at h
    rw [pySplit_cons]
    have : ¬(0 < sep.length ∧ leadMatch sep (c :: cs) = true) := by
      intro hc; rw [h.1] at hc; exact Bool.false_ne_true hc.2
    rw [if_neg this, ih h.2]

theorem pySplit_consume {sep a r : List Char} (hs : 0 < sep.length)
    (H : ∀ k, k < a.length →
      leadMatch sep ((a ++ sep ++ r).drop k) = false) :
    pySplit sep (a ++ sep ++ r) = a :: pySplit sep r := by
  induction a with
  | nil =>
    simp only [List.nil_append]
    cases hsep : sep with
    | nil => subst hsep; simp at hs
    | cons s0 ss =>
      subst hsep
      rw [List.cons_append, pySplit_cons]
      have hm : leadMatch (s0 :: ss) (s0 :: (ss ++ r)) = true := by
        have := leadMatch_append_self (s0 :: ss) r
        simpa using this
      rw [if_pos ⟨hs, hm⟩]
      congr 1
      have hdrop : List.drop (s0 :: ss).length (s0 :: (ss ++ r)) = r := by
        have := List.drop_left (s0 :: ss) r
        simpa using this
      rw [hdrop]
  | cons c a' ih =>
    have h0 : leadMatch sep ((c :: a') ++ sep ++ r) = false := by
      have := H 0 (by simp)
      simpa using this
    rw [List.cons_append, List.cons_append, pySplit_cons]
    have hni : ¬(0 < sep.length ∧
        leadMatch sep (c :: (a' ++ sep ++ r)) = true) := by
      intro hc
      rw [List.cons_append, List.cons_append] at h0
      rw [h0] at hc
      exact Bool.false_ne_true hc.2
    rw [if_neg hni]
    have ih' : pySplit sep (a' ++ sep ++ r) = a' :: pySplit sep r := by
      apply ih
      intro k hk
      have := H (k + 1) (by simpa using Nat.succ_lt_succ hk)
      simpa using this
    rw [ih']

theorem joinWith_cons_ne (sep b : List Char) {bs : List (List Char)}
    (h : bs ≠ []) : joinWith sep (b :: bs) = b ++ sep ++ joinWith sep bs := by
  cases bs with
  | nil => exact absurd rfl h
  | cons b' bs' => rfl

theorem joinWith_pySplit (sep : List Char) :
    ∀ s, joinWith sep (pySplit sep s) = s := by
  have main : ∀ n s, s.length ≤ n → joinWith sep (pySplit sep s) = s := by
    intro n
    induction n with
    | zero =>
      intro s hsl
      have : s = [] := List.length_eq_zero.mp (Nat.le_zero.mp hsl)
      subst this
      rw [pySplit_nil]; rfl
    | succ n ih =>
      intro s hsl
      cases s with
      | nil => rw [pySplit_nil]; rfl
      | cons c cs =>
        rw [pySplit_cons]
        by_cases h : 0 < sep.length ∧ leadMatch sep (c :: cs) = true
        · rw [if_pos h]
          rw [joinWith_cons_ne sep [] (pySplit_ne_nil _ _)]
          have hlen : ((c :: cs).drop sep.length).length ≤ n := by
            simp only [List.length_drop, List.length_cons]
            simp only [List.length_cons] at hsl
            have := h.1
            omega
          rw [ih _ hlen]
          simp only [List.nil_append]
          exact leadMatch_restores h.2
        · rw [if_neg h]
          have hlen : cs.length ≤ n := by
            simp only [List.length_cons] at hsl; omega
          have hcs := ih cs hlen
          cases hps : pySplit sep cs with
          | nil => exact absurd hps (pySplit_ne_nil _ _)
          | cons t ts =>
            rw [hps] at hcs
            cases ts with
            | nil =>
              simp only [joinWith] at hcs ⊢
              rw [hcs]
            | cons t' ts' =>
              rw [joinWith_cons_ne sep _ (by simp)] at hcs
              rw [joinWith_cons_ne sep _ (by simp)]
              simp only [List.cons_append]
              rw [hcs]
  intro s
  exact main s.length s (Nat.le_refl _)

/-! Facts about digit rendering and parsing. -/

theorem natDigitsGo_fuel (n : Nat) :
    ∀ f g, n < f → n < g → natDigitsGo f n = natDigitsGo g n := by
  induction n using Nat.strong_induction_on with
  | _ n ih =>
    intro f g hf hg
    cases f with
    | zero => omega
    | succ f =>
      cases g with
      | zero => omega
      | succ g =>
        simp only [natDigitsGo]
        by_cases h10 : n < 10
        · simp [h10]
        · simp only [if_neg h10]
          have hdiv : n / 10 < n := Nat.div_lt_self (by omega) (by omega)
          rw [ih (n / 10) hdiv f g (by omega) (by omega)]

theorem natToDigits_eq (n : Nat) :
    natToDigits n =
      if n < 10 then [digitChar n]
      else natToDigits (n / 10) ++ [digitChar (n % 10)] := by
  show natDigitsGo (n + 1) n = _
  simp only [natDigitsGo]
  by_cases h10 : n < 10
  · simp [h10]
  · simp only [if_neg h10]
    have hdiv : n / 10 < n := Nat.div_lt_self (by omega) (by omega)
    rw [natDigitsGo_fuel (n / 10) n (n / 10 + 1) (by omega) (by omega)]
    rfl

theorem natToDigits_ne_nil (n : Nat) : natToDigits n ≠ [] := by
  rw [natToDigits_eq]
  split <;> simp

theorem digitChar_isDigit {d : Nat} (h : d < 10) :
    (digitChar d).isDigit = true := by
  interval_cases d <;> decide

theorem digitChar_toNat {d : Nat} (h : d < 10) :
    (digitChar d).toNat = 48 + d := by
  interval_cases d <;> decide

theorem natToDigits_all_digit (n : Nat) :
    ∀ c ∈ natToDigits n, c.isDigit = true := by
  induction n using Nat.strong_induction_on with
  | _ n ih =>
    rw [natToDigits_eq]
    by_cases h10 : n < 10
    · simp only [if_pos h10, List.mem_singleton]
      intro c hc
      subst hc
      exact digitChar_isDigit h10
    · simp only [if_neg h10, List.mem_append, List.mem_singleton]
      intro c hc
      rcases hc with hc | hc
      · exact ih (n / 10) (Nat.div_lt_self (by omega) (by omega)) c hc
      · subst hc
        exact digitChar_isDigit (Nat.mod_lt _ (by omega))

theorem natToDigits_length_le {n k : Nat} (hk : 0 < k) (h : n < 10 ^ k) :
    (natToDigits n).length ≤ k := by
  induction k generalizing n with
  | zero => omega
  | succ k ih =>
    rw [natToDigits_eq]
    by_cases h10 : n < 10
    · simp [h10]
    · simp only [if_neg h10, List.length_append, List.length_cons,
        List.length_nil]
      have hk0 : 0 < k := by
        by_contra hk0
        have : k = 0 := by omega
        subst this
        simp at h
        omega
      have hdiv : n / 10 < 10 ^ k := by
        rw [pow_succ] at h
        omega
      have := ih hk0 hdiv
      omega

theorem digitsToNat_natToDigits (n : Nat) :
    digitsToNat (natToDigits n) = n := by
  induction n using Nat.strong_induction_on with
  | _ n ih =>
    rw [natToDigits_eq]
    by_cases h10 : n < 10
    · simp only [if_pos h10, digitsToNat, List.foldl_cons, List.foldl_nil]
      rw [digitChar_toNat h10]
      omega
    · simp only [if_neg h10, digitsToNat, List.foldl_append,
        List.foldl_cons, List.foldl_nil]
      have ihd := ih (n / 10) (Nat.div_lt_self (by omega) (by omega))
      unfold digitsToNat at ihd
      rw [ihd, digitChar_toNat (Nat.mod_lt _ (by omega))]
      omega

theorem foldl_zeros (k : Nat) :
    List.foldl (fun a c => 10 * a + (c.toNat - 48)) 0
      (List.replicate k '0') = 0 := by
  induction k with
  | zero => rfl
  | succ k ih => simpa [List.replicate_succ] using ih

theorem digitsToNat_padLeft (w n : Nat) :
    digitsToNat (padLeft w (natToDigits n)) = n := by
  unfold padLeft digitsToNat
  rw [List.foldl_append, foldl_zeros]
  exact digitsToNat_natToDigits n

theorem padLeft_all_digit (w n : Nat) :
    ∀ c ∈ padLeft w (natToDigits n), c.isDigit = true := by
  intro c hc
  rcases List.mem_append.mp hc with hc | hc
  · rw [List.eq_of_mem_replicate hc]
    decide
  · exact natToDigits_all_digit n c hc

theorem padLeft_ne_nil (w n : Nat) : padLeft w (natToDigits n) ≠ [] := by
  unfold padLeft
  intro h
  rcases List.append_eq_nil.mp h with ⟨-, h2⟩
  exact natToDigits_ne_nil n h2

theorem padLeft_length_eq {w : Nat} {l : List Char} (h : l.length ≤ w) :
    (padLeft w l).length = w := by
  unfold padLeft
  simp only [List.length_append, List.length_replicate]
  omega

theorem isDigit_not_ws {c : Char} (h : c.isDigit = true) :
    pyWhitespace c = false := by
  by_contra hws
  rw [Bool.not_eq_false] at hws
  simp only [pyWhitespace, Bool.or_eq_true, decide_eq_true_eq] at hws
  rcases hws with ((((h1 | h1) | h1) | h1) | h1) | h1 <;> subst h1 <;>
    exact absurd h (by decide)

theorem ne_of_isDigit {c x : Char} (h : c.isDigit = true)
    (hx : x.isDigit = false) : c ≠ x := by
  intro heq
  subst heq
  rw [h] at hx
  cases hx

theorem head?_mem_local {α : Type} {l : List α} {a : α}
    (h : l.head? = some a) : a ∈ l := by
  cases l with
  | nil => simp at h
  | cons x xs =>
    simp only [List.head?_cons, Option.some.injEq] at h
    subst h
    simp

theorem getLast?_mem_local {α : Type} {l : List α} {a : α}
    (h : l.getLast? = some a) : a ∈ l := by
  rw [List.getLast?_eq_head?_reverse] at h
  exact List.mem_reverse.mp (head?_mem_local h)

theorem getLast?_cons_ne {α : Type} (a : α) {l : List α} (h : l ≠ []) :
    (a :: l).getLast? = l.getLast? := by
  have : (a :: l) = [a] ++ l := rfl
  rw [this, List.getLast?_append]
  cases hgl : l.getLast? with
  | none =>
    exact absurd (List.getLast?_eq_none_iff.mp hgl) h
  | some x => rfl

theorem pyStrip_noop {s : List Char}
    (h1 : ∀ c, s.head? = some c → pyWhitespace c = false)
    (h2 : ∀ c, s.getLast? = some c → pyWhitespace c = false) :
    pyStrip s = s := by
  unfold pyStrip
  have hd : s.dropWhile pyWhitespace = s := by
    cases s with
    | nil => rfl
    | cons c cs =>
      rw [List.dropWhile_cons, if_neg]
      rw [h1 c rfl]
      simp
  rw [hd]
  have hrev : s.reverse.dropWhile pyWhitespace = s.reverse := by
    cases hr : s.reverse with
    | nil => rfl
    | cons c cs =>
      rw [List.dropWhile_cons, if_neg]
      have : s.getLast? = some c := by
        rw [List.getLast?_eq_head?_reverse, hr]
        rfl
      rw [h2 c this]
      simp
  rw [hrev, List.reverse_reverse]

/-! Round trips between numbers and digit strings. -/

theorem pyInt_digits {l : List Char} (hne : l ≠ [])
    (hd : ∀ c ∈ l, c.isDigit = true) :
    pyInt l = .ok ((digitsToNat l : Nat) : Int) := by
  have hstrip : pyStrip l = l := by
    apply pyStrip_noop
    · intro c hc; exact isDigit_not_ws (hd c (head?_mem_local hc))
    · intro c hc; exact isDigit_not_ws (hd c (getLast?_mem_local hc))
  cases l with
  | nil => exact absurd rfl hne
  | cons c ds =>
    have hc := hd c (by simp)
    simp only [pyInt, hstrip]
    rw [if_neg (ne_of_isDigit hc (by decide)),
      if_neg (ne_of_isDigit hc (by decide)), if_pos]
    exact List.all_eq_true.mpr fun x hx => hd x hx

theorem pyInt_padded (w n : Nat) :
    pyInt (padLeft w (natToDigits n)) = .ok ((n : Nat) : Int) := by
  rw [pyInt_digits (padLeft_ne_nil w n) (padLeft_all_digit w n),
    digitsToNat_padLeft]

theorem pyInt_natToDigits (n : Nat) :
    pyInt (natToDigits n) = .ok ((n : Nat) : Int) := by
  rw [pyInt_digits (natToDigits_ne_nil n) (natToDigits_all_digit n),
    digitsToNat_natToDigits]

theorem pyInt_intStr (i : Int) : pyInt (intStr i) = .ok i := by
  unfold intStr
  by_cases h : i < 0
  · simp only [if_pos h]
    have hstrip : pyStrip ('-' :: natToDigits i.natAbs) =
        '-' :: natToDigits i.natAbs := by
      apply pyStrip_noop
      · intro c hc
        simp only [List.head?_cons, Option.some.injEq] at hc
        subst hc
        decide
      · intro c hc
        rw [getLast?_cons_ne _ (natToDigits_ne_nil _)] at hc
        exact isDigit_not_ws (natToDigits_all_digit _ c (getLast?_mem_local hc))
    simp only [pyInt, hstrip]
    rw [if_pos trivial, if_pos ⟨natToDigits_ne_nil _,
      List.all_eq_true.mpr fun x hx => natToDigits_all_digit _ x hx⟩,
      digitsToNat_natToDigits]
    congr 1
    omega
  · simp only [if_neg h]
    rw [pyInt_natToDigits]
    congr 1
    omega

/-! Structure of `stringify` output and the timecode round trip. -/

theorem stringify_eq (m : Int) :
    stringify m = (if m < 0 then ['-'] else []) ++ bodyStr m.natAbs := by
  unfold stringify bodyStr
  simp only [List.append_assoc]

theorem occurs_single_false {c : Char} {s : List Char} (h : c ∉ s) :
    occurs [c] s = false := by
  induction s with
  | nil => rfl
  | cons x xs ih =>
    simp only [List.mem_cons, not_or] at h
    simp only [occurs, Bool.or_eq_false_iff]
    refine ⟨?_, ih h.2⟩
    simp only [leadMatch, Bool.and_eq_false_iff]
    left
    exact beq_eq_false_iff_ne.mpr h.1

theorem single_H {c : Char} {a : List Char} (r : List Char) (hc : c ∉ a) :
    ∀ k, k < a.length → leadMatch [c] ((a ++ [c] ++ r).drop k) = false := by
  intro k hk
  rw [List.append_assoc, List.drop_append_of_le_length (le_of_lt hk)]
  cases hd : a.drop k with
  | nil =>
    have := List.length_drop k a
    rw [hd] at this
    simp at this
    omega
  | cons x xs =>
    have hx : x ∈ a := by
      apply List.drop_subset k a
      rw [hd]
      simp
    simp only [List.cons_append, leadMatch, Bool.and_eq_false_iff]
    left
    apply beq_eq_false_iff_ne.mpr
    intro heq
    exact hc (heq ▸ hx)

theorem pySplit_single {c : Char} {a : List Char} (r : List Char)
    (hc : c ∉ a) : pySplit [c] (a ++ c :: r) = a :: pySplit [c] r := by
  have heq : a ++ c :: r = a ++ [c] ++ r := by simp
  rw [heq]
  exact pySplit_consume (by simp) (single_H r hc)

theorem bodyStr_assoc (t : Nat) :
    bodyStr t =
      padLeft 2 (natToDigits (t / 1000 / 60 / 60)) ++ ':' ::
        (padLeft 2 (natToDigits (t / 1000 / 60 % 60)) ++ ':' ::
          (padLeft 2 (natToDigits (t / 1000 % 60)) ++ ',' ::
            padLeft 3 (natToDigits (t % 1000)))) := by
  unfold bodyStr
  simp [List.append_assoc]

theorem not_mem_padLeft {x : Char} (hx : x.isDigit = false) (w n : Nat) :
    x ∉ padLeft w (natToDigits n) := by
  intro hm
  have := padLeft_all_digit w n x hm
  rw [this] at hx
  cases hx

theorem pySplit_colon_bodyStr (t : Nat) :
    pySplit [':'] (bodyStr t) =
      [padLeft 2 (natToDigits (t / 1000 / 60 / 60)),
       padLeft 2 (natToDigits (t / 1000 / 60 % 60)),
       padLeft 2 (natToDigits (t / 1000 % 60)) ++ ',' ::
         padLeft 3 (natToDigits (t % 1000))] := by
  rw [bodyStr_assoc]
  rw [pySplit_single _ (not_mem_padLeft (by decide) 2 _)]
  rw [pySplit_single _ (not_mem_padLeft (by decide) 2 _)]
  rw [pySplit_no_occur (occurs_single_false ?_)]
  intro hm
  rcases List.mem_append.mp hm with hm | hm
  · exact not_mem_padLeft (by decide) 2 _ hm
  · rcases List.mem_cons.mp hm with hm | hm
    · cases hm
    · exact not_mem_padLeft (by decide) 3 _ hm

theorem bodyStr_length {t : Nat} (h : t < 360000000) :
    (bodyStr t).length = 12 := by
  have h2 : (10 : Nat) ^ 2 = 100 := by norm_num
  have h3 : (10 : Nat) ^ 3 = 1000 := by norm_num
  have lh : (padLeft 2 (natToDigits (t / 1000 / 60 / 60))).length = 2 :=
    padLeft_length_eq (natToDigits_length_le (by omega) (by rw [h2]; omega))
  have lm : (padLeft 2 (natToDigits (t / 1000 / 60 % 60))).length = 2 :=
    padLeft_length_eq (natToDigits_length_le (by omega) (by rw [h2]; omega))
  have ls : (padLeft 2 (natToDigits (t / 1000 % 60))).length = 2 :=
    padLeft_length_eq (natToDigits_length_le (by omega) (by rw [h2]; omega))
  have lms : (padLeft 3 (natToDigits (t % 1000))).length = 3 :=
    padLeft_length_eq (natToDigits_length_le (by omega) (by rw [h3]; omega))
  rw [bodyStr_assoc]
  simp only [List.length_append, List.length_cons, lh, lm, ls, lms]

theorem parseUnsigned_bodyStr {t : Nat} (h : t < 360000000) :
    parseUnsigned (bodyStr t) = .ok ((t : Nat) : Int) := by
  have hsplit2 : pySplit [',']
      (padLeft 2 (natToDigits (t / 1000 % 60)) ++ ',' ::
        padLeft 3 (natToDigits (t % 1000))) =
      [padLeft 2 (natToDigits (t / 1000 % 60)),
       padLeft 3 (natToDigits (t % 1000))] := by
    rw [pySplit_single _ (not_mem_padLeft (by decide) 2 _)]
    rw [pySplit_no_occur
      (occurs_single_false (not_mem_padLeft (by decide) 3 _))]
  unfold parseUnsigned
  rw [bodyStr_length h]
  simp only [getHMS, if_true, pySplit_colon_bodyStr, Except.bind, hsplit2,
    pyInt_padded]
  congr 1
  omega

theorem bodyStr_head_digit (t : Nat) :
    ∀ c, (bodyStr t).head? = some c → c.isDigit = true := by
  intro c hc
  rw [bodyStr_assoc, List.head?_append] at hc
  cases hA : (padLeft 2 (natToDigits (t / 1000 / 60 / 60))).head? with
  | none =>
    exact absurd (List.head?_eq_none_iff.mp hA) (padLeft_ne_nil 2 _)
  | some a =>
    rw [hA] at hc
    simp only [Option.or_some, Option.some.injEq] at hc
    subst hc
    exact padLeft_all_digit 2 _ _ (head?_mem_local hA)

theorem parseTimecode_cons (c0 : Char) (rest : List Char) :
    parseTimecode (c0 :: rest) =
      (parseUnsigned (if c0 = '-' then rest else c0 :: rest)).bind
        fun v => .ok (v * (if c0 = '-' then -1 else 1)) := rfl

theorem parseTimecode_stringify {m : Int} (h : m.natAbs < 360000000) :
    parseTimecode (stringify m) = .ok m := by
  rw [stringify_eq]
  by_cases hm : m < 0
  · rw [if_pos hm]
    simp only [List.singleton_append]
    rw [parseTimecode_cons, if_pos rfl, if_pos rfl, parseUnsigned_bodyStr h]
    simp only [Except.bind]
    congr 1
    omega
  · rw [if_neg hm, List.nil_append]
    cases hb : bodyStr m.natAbs with
    | nil =>
      have := bodyStr_length h
      rw [hb] at this
      simp at this
    | cons c0 rest =>
      have hc0 : c0.isDigit = true :=
        bodyStr_head_digit _ c0 (by rw [hb]; rfl)
      rw [parseTimecode_cons, if_neg (ne_of_isDigit hc0 (by decide)),
        if_neg (ne_of_isDigit hc0 (by decide)), ← hb,
        parseUnsigned_bodyStr h]
      simp only [Except.bind]
      congr 1
      omega

theorem parseUnsigned_short_digits {ds : List Char} (hne : ds ≠ [])
    (hlen : ds.length ≤ 3) (hd : ∀ c ∈ ds, c.isDigit = true) :
    parseUnsigned ds = .ok ((digitsToNat ds : Nat) : Int) := by
  have hpos : 0 < ds.length := List.length_pos.mpr hne
  have hcomma : ',' ∉ ds := fun hm => absurd (hd _ hm) (by decide)
  unfold parseUnsigned getHMS
  rw [if_neg (by omega), if_neg (by omega), if_neg (by omega),
    if_neg (by omega), if_pos ⟨hlen, hpos⟩]
  simp only [Except.bind]
  have hsp : pySplit [','] ('0' :: ',' :: ds) = [['0'], ds] := by
    have h1 : ('0' :: ',' :: ds) = ['0'] ++ ',' :: ds := rfl
    rw [h1, pySplit_single _ (by decide),
      pySplit_no_occur (occurs_single_false hcomma)]
  have h0 : pyInt ['0'] = .ok 0 := by decide
  simp only [hsp, h0, pyInt_digits hne hd, Except.bind]
  congr 1
  ring

theorem parseUnsigned_badlen {time : List Char}
    (h : time.length = 0 ∨ time.length = 4 ∨ time.length = 7 ∨
      time.length = 8 ∨ time.length = 10 ∨ time.length = 11 ∨
      12 < time.length) :
    parseUnsigned time = .error .invalidTimestring := by
  unfold parseUnsigned getHMS
  rw [if_neg (by omega), if_neg (by omega), if_neg (by omega),
    if_neg (by omega), if_neg (by omega)]
  rfl

/-- Claim C1, counterexample: the claim states that a 1 to 3 digit string
is read as whole seconds, so that parsing the one-character string 5
would yield five thousand milliseconds; in fact the code builds the
string `0,` followed by the digits, making them the milliseconds
component: parsing 5 yields five milliseconds, not five thousand. -/
theorem C1_counterexample :
    parseTimecode (chars ("5")) = .ok 5 ∧
      parseTimecode (chars ("5")) ≠ .ok (5 * 1000) := by
  exact ⟨by decide, by decide⟩

/-- Claim C1 as amended: for every digit string of length 1 to 3 after
stripping an optional leading minus sign, parsing interprets the digits
as a whole number of MILLISECONDS: the resulting value is the number
itself, negated when the sign was present, with the seconds, minutes and
hours components all zero. -/
theorem C1_short_digit_strings_are_milliseconds :
    ∀ ds : List Char, ds ≠ [] → ds.length ≤ 3 →
      (∀ c ∈ ds, c.isDigit = true) →
      parseTimecode ds = .ok ((digitsToNat ds : Nat) : Int) ∧
        parseTimecode ('-' :: ds) = .ok (-((digitsToNat ds : Nat) : Int)) := by
  intro ds hne hlen hd
  constructor
  · cases ds with
    | nil => exact absurd rfl hne
    | cons c0 rest =>
      have hc0 : c0.isDigit = true := hd c0 (by simp)
      rw [parseTimecode_cons, if_neg (ne_of_isDigit hc0 (by decide)),
        if_neg (ne_of_isDigit hc0 (by decide)),
        parseUnsigned_short_digits hne hlen hd]
      simp [Except.bind]
  · rw [parseTimecode_cons, if_pos rfl, if_pos rfl,
      parseUnsigned_short_digits hne hlen hd]
    simp [Except.bind]

/-- Witness for C1: the string 5 parses to five milliseconds and the
string -5 to minus five milliseconds. -/
theorem C1_witness :
    parseTimecode ['5'] = .ok ((digitsToNat ['5'] : Nat) : Int) ∧
      parseTimecode ('-' :: ['5']) =
        .ok (-((digitsToNat ['5'] : Nat) : Int)) :=
  C1_short_digit_strings_are_milliseconds ['5'] (by decide) (by decide)
    (by decide)

/-- Claim C2, counterexample: the claim quantifies over every
non-negative representable millisecond count, but at one hundred hours
(360000000 ms) stringify emits thirteen characters, which re-parsing
rejects as an InvalidTimestringException instead of recovering the
value. -/
theorem C2_counterexample :
    parseTimecode (stringify 360000000) = .error .invalidTimestring ∧
      parseTimecode (stringify 360000000) ≠ .ok 360000000 := by
  exact ⟨by decide, by decide⟩

/-- Claim C2 as amended: for every non-negative millisecond count below
one hundred hours (360000000 ms), parsing the stringified Timecode
recovers exactly the same millisecond value. -/
theorem C2_timecode_roundtrip :
    ∀ m : Int, 0 ≤ m → m < 360000000 →
      parseTimecode (stringify m) = .ok m := by
  intro m h1 h2
  exact parseTimecode_stringify (by omega)

/-- Witness for C2: one hour, one minute, one second and one millisecond
survives the round trip. -/
theorem C2_witness : parseTimecode (stringify 3661001) = .ok 3661001 :=
  C2_timecode_roundtrip 3661001 (by decide) (by decide)

/-- Claim C5, counterexample: the claim states that the empty string
fails with InvalidTimestringException; in fact the sign check `time[0]`
runs before any length test, so the empty string raises the Python
builtin IndexError instead. -/
theorem C5_counterexample :
    parseTimecode [] = .error .indexError ∧
      parseTimecode [] ≠ .error .invalidTimestring := by
  exact ⟨by decide, by decide⟩

/-- Claim C5 as amended: every NONEMPTY input string whose length after
stripping an optional leading minus sign is 0, 4, 7, 8, 10, 11 or
greater than 12 fails with InvalidTimestringException, regardless of its
characters; the empty string instead raises the Python builtin
IndexError from the sign check, as the counterexample shows. -/
theorem C5_bad_lengths_invalid :
    ∀ (c0 : Char) (rest : List Char),
      ((if c0 = '-' then rest else c0 :: rest).length = 0 ∨
        (if c0 = '-' then rest else c0 :: rest).length = 4 ∨
        (if c0 = '-' then rest else c0 :: rest).length = 7 ∨
        (if c0 = '-' then rest else c0 :: rest).length = 8 ∨
        (if c0 = '-' then rest else c0 :: rest).length = 10 ∨
        (if c0 = '-' then rest else c0 :: rest).length = 11 ∨
        12 < (if c0 = '-' then rest else c0 :: rest).length) →
      parseTimecode (c0 :: rest) = .error .invalidTimestring := by
  intro c0 rest h
  rw [parseTimecode_cons, parseUnsigned_badlen h]
  rfl

/-- Witness for C5: the four-character digit string 1234 fails with
InvalidTimestringException. -/
theorem C5_witness :
    parseTimecode ['1', '2', '3', '4'] = .error .invalidTimestring :=
  C5_bad_lengths_invalid '1' ['2', '3', '4'] (by decide)

/-- Truncation of the zero rational is zero. -/
theorem intTrunc_zero : intTrunc 0 = 0 := by
  unfold intTrunc
  simp

/-- Claim C4, counterexample: the claim states that sync with target
equal to anchor reports a typed DegenerateSync error; in fact the code
divides by the float of a zero millisecond count and dies with the
Python builtin ZeroDivisionError, and no DegenerateSync class exists in
the program. -/
theorem C4_counterexample :
    sync [⟨1, 1000, 2000, ['a']⟩] 5000 7000 5000 =
        .error .zeroDivisionError ∧
      sync [⟨1, 1000, 2000, ['a']⟩] 5000 7000 5000 ≠
        .error .degenerateSync := by
  exact ⟨by decide, by decide⟩

/-- Claim C4 as amended: for every document and all timecodes with
target equal to anchor, sync fails with the untyped Python builtin
ZeroDivisionError (there is no typed DegenerateSync in the code); the
failure happens before the resize, so no document is produced and no
NaN or infinity can reach any output. -/
theorem C4_sync_zero_division :
    ∀ (d : List SubEntry) (target goal anchor : Int), target = anchor →
      sync d target goal anchor = .error .zeroDivisionError := by
  intro d target goal anchor h
  subst h
  unfold sync
  simp

/-- Witness for C4: a one-entry document synced with target and anchor
both at three seconds reports ZeroDivisionError. -/
theorem C4_witness :
    sync [⟨1, 1000, 2000, ['a']⟩] 3000 9000 3000 =
      .error .zeroDivisionError :=
  C4_sync_zero_division [⟨1, 1000, 2000, ['a']⟩] 3000 9000 3000 rfl

/-- Claim C8: resize is the composition shift by minus anchor, scale,
shift back, and any start or end that equals the anchor is mapped to
itself exactly, because the shifted value is zero and zero times any
(finite) factor truncates to zero.  The float factor is modelled by an
exact rational, which agrees with IEEE arithmetic on this product. -/
theorem C8_resize_anchor_fixed :
    ∀ (d : List SubEntry) (anchor : Int) (factor : ℚ) (i : Nat)
      (e : SubEntry), d[i]? = some e →
      (e.start = anchor →
        ((resize anchor factor d)[i]?).map SubEntry.start = some anchor) ∧
      (e.endTime = anchor →
        ((resize anchor factor d)[i]?).map SubEntry.endTime = some anchor) := by
  intro d anchor factor i e he
  unfold resize shift_time_by multiply_time_by
  simp only [List.map_map, List.getElem?_map, he, Option.map_some',
    Function.comp]
  constructor
  · intro hs
    simp only [hs, add_neg_cancel, Int.cast_zero, zero_mul, intTrunc_zero,
      zero_add]
  · intro hs
    simp only [hs, add_neg_cancel, Int.cast_zero, zero_mul, intTrunc_zero,
      zero_add]

/-- Witness for C8: an entry starting and ending at the anchor is left
exactly in place by a resize with factor three. -/
theorem C8_witness :
    ((resize 5000 3 [⟨1, 5000, 5000, ['x']⟩])[0]?).map SubEntry.start =
        some 5000 ∧
      ((resize 5000 3 [⟨1, 5000, 5000, ['x']⟩])[0]?).map SubEntry.endTime =
        some 5000 :=
  ⟨(C8_resize_anchor_fixed [⟨1, 5000, 5000, ['x']⟩] 5000 3 0
      ⟨1, 5000, 5000, ['x']⟩ rfl).1 rfl,
   (C8_resize_anchor_fixed [⟨1, 5000, 5000, ['x']⟩] 5000 3 0
      ⟨1, 5000, 5000, ['x']⟩ rfl).2 rfl⟩

theorem reindexFrom_length : ∀ (k : Int) (d : List SubEntry),
    (reindexFrom k d).length = d.length := by
  intro k d
  induction d generalizing k with
  | nil => rfl
  | cons e es ih => simp [reindexFrom, ih]

theorem reindexFrom_getElem? : ∀ (d : List SubEntry) (k : Int) (i : Nat),
    ((reindexFrom k d)[i]?).map (fun e => (e.start, e.endTime, e.text)) =
      (d[i]?).map (fun e => (e.start, e.endTime, e.text)) := by
  intro d
  induction d with
  | nil => intro k i; rfl
  | cons e es ih =>
    intro k i
    cases i with
    | zero => simp [reindexFrom]
    | succ i =>
      simp only [reindexFrom, List.getElem?_cons_succ]
      exact ih (k + 1) i

/-- Claim C9: every engine operation touches only the fields it is
about.  shift_time_by, multiply_time_by and resize preserve the length
and, position by position, the index and text of every entry;
shift_index_by and reindex preserve the length and, position by
position, the start, end and text of every entry.  Length preservation
together with positionwise field preservation also shows that none of
these operations adds, removes or reorders entries. -/
theorem C9_frame_effects :
    ∀ (d : List SubEntry) (t : Int) (f : ℚ) (n : Int) (i : Nat),
      ((shift_time_by t d).length = d.length ∧
        ((shift_time_by t d)[i]?).map (fun e => (e.index, e.text)) =
          (d[i]?).map (fun e => (e.index, e.text))) ∧
      ((multiply_time_by f d).length = d.length ∧
        ((multiply_time_by f d)[i]?).map (fun e => (e.index, e.text)) =
          (d[i]?).map (fun e => (e.index, e.text))) ∧
      ((resize t f d).length = d.length ∧
        ((resize t f d)[i]?).map (fun e => (e.index, e.text)) =
          (d[i]?).map (fun e => (e.index, e.text))) ∧
      ((shift_index_by n d).length = d.length ∧
        ((shift_index_by n d)[i]?).map (fun e => (e.start, e.endTime, e.text)) =
          (d[i]?).map (fun e => (e.start, e.endTime, e.text))) ∧
      ((reindex d).length = d.length ∧
        ((reindex d)[i]?).map (fun e => (e.start, e.endTime, e.text)) =
          (d[i]?).map (fun e => (e.start, e.endTime, e.text))) := by
  intro d t f n i
  refine ⟨⟨?_, ?_⟩, ⟨?_, ?_⟩, ⟨?_, ?_⟩, ⟨?_, ?_⟩, ⟨?_, ?_⟩⟩
  · simp [shift_time_by]
  · simp only [shift_time_by, List.getElem?_map, Option.map_map]
    rfl
  · simp [multiply_time_by]
  · simp only [multiply_time_by, List.getElem?_map, Option.map_map]
    rfl
  · simp [resize, shift_time_by, multiply_time_by]
  · simp only [resize, shift_time_by, multiply_time_by, List.map_map,
      List.getElem?_map, Option.map_map]
    rfl
  · simp [shift_index_by]
  · simp only [shift_index_by, List.getElem?_map, Option.map_map]
    rfl
  · exact reindexFrom_length 1 d
  · exact reindexFrom_getElem? d 1 i

/-- Claim C10: the checktype decorator raises TypeError whenever the
right operand of a Timecode binary operator is not a Timecode, for all
four operators; on two Timecodes, addition and subtraction return a new
Timecode holding the exact integer sum or difference.  Both operands are
plain immutable values in this model, matching the Python code, which
never mutates an operand and always builds a fresh Timecode. -/
theorem C10_checktype_arith :
    ∀ (t : Int) (x : PyVal),
      ((∀ m, x ≠ PyVal.timecode m) →
        tcAdd t x = .error .typeError ∧ tcSub t x = .error .typeError ∧
          tcMul t x = .error .typeError ∧ tcDiv t x = .error .typeError) ∧
      (∀ m, tcAdd t (.timecode m) = .ok (t + m) ∧
        tcSub t (.timecode m) = .ok (t - m)) := by
  intro t x
  constructor
  · intro hx
    cases x with
    | timecode m => exact absurd rfl (hx m)
    | intVal n => exact ⟨rfl, rfl, rfl, rfl⟩
    | strVal s => exact ⟨rfl, rfl, rfl, rfl⟩
    | noneVal => exact ⟨rfl, rfl, rfl, rfl⟩
  · intro m
    exact ⟨rfl, rfl⟩

/-- Witness for C10: adding the integer five (not a Timecode) to a
Timecode raises TypeError, while adding a Timecode of four milliseconds
to one of three yields exactly seven. -/
theorem C10_witness :
    tcAdd 3 (PyVal.intVal 5) = .error .typeError ∧
      tcAdd 3 (PyVal.timecode 4) = .ok (3 + 4) :=
  ⟨((C10_checktype_arith 3 (PyVal.intVal 5)).1
      (fun m h => PyVal.noConfusion h)).1,
   ((C10_checktype_arith 3 (PyVal.timecode 4)).2 4).1⟩

theorem mergeGo_chain :
    ∀ (subs : List (List SubEntry)) (base : List SubEntry) (offset : Int),
      (∀ s ∈ subs, s ≠ []) →
      mergeGo base offset subs = .ok (reindex (base ++ chainFrom offset subs)) := by
  intro subs
  induction subs with
  | nil =>
    intro base offset h
    simp [mergeGo, chainFrom]
  | cons sub rest ih =>
    intro base offset h
    have hsub : sub ≠ [] := h sub (by simp)
    have hs : shift_time_by offset sub ≠ [] := by
      simp only [shift_time_by, ne_eq, List.map_eq_nil_iff]
      exact hsub
    obtain ⟨e, he⟩ : ∃ e, (shift_time_by offset sub).getLast? = some e := by
      cases hgl : (shift_time_by offset sub).getLast? with
      | none => exact absurd (List.getLast?_eq_none_iff.mp hgl) hs
      | some e => exact ⟨e, rfl⟩
    have hle : lastEndD (shift_time_by offset sub) = e.endTime := by
      unfold lastEndD
      rw [he]
    simp only [mergeGo, chainFrom, he]
    rw [hle, ← List.append_assoc]
    exact ih (base ++ shift_time_by offset sub) e.endTime
      (fun s hmem => h s (by simp [hmem]))

/-- Claim C7: merge takes the first document as base, shifts every
subsequent document by the running offset (initially the end of the
last entry of the base, then after each document the post-shift end of
the last entry of that document), concatenates in order, and reindexes
from one; the second conjunct checks the concrete example of the claim,
where a document ending at five seconds absorbs a one-to-three-second
document shifted to six-to-eight seconds with indices one and two. -/
theorem C7_merge_spec :
    (∀ docs : List (List SubEntry), 2 ≤ docs.length →
      (∀ s ∈ docs, s ≠ []) → merge docs = .ok (mergeSpec docs)) ∧
      merge [[⟨1, 1000, 5000, ['a']⟩], [⟨1, 1000, 3000, ['b']⟩]] =
        .ok [⟨1, 1000, 5000, ['a']⟩, ⟨2, 6000, 8000, ['b']⟩] := by
  constructor
  · intro docs hlen hne
    cases docs with
    | nil => simp at hlen
    | cons base subs =>
      unfold merge
      rw [if_neg (by simp only [List.length_cons] at hlen ⊢; omega)]
      have hbase : base ≠ [] := hne base (by simp)
      obtain ⟨e, he⟩ : ∃ e, base.getLast? = some e := by
        cases hgl : base.getLast? with
        | none => exact absurd (List.getLast?_eq_none_iff.mp hgl) hbase
        | some e => exact ⟨e, rfl⟩
      simp only [he]
      rw [mergeGo_chain subs base e.endTime
        (fun s hmem => hne s (by simp [hmem]))]
      unfold mergeSpec lastEndD
      simp only [he]
  · decide

/-- Witness for C7: the general merge characterization applied to the
two concrete documents of the example. -/
theorem C7_witness :
    merge [[⟨1, 1000, 5000, ['a']⟩], [⟨1, 1000, 3000, ['b']⟩]] =
      .ok (mergeSpec [[⟨1, 1000, 5000, ['a']⟩], [⟨1, 1000, 3000, ['b']⟩]]) :=
  C7_merge_spec.1 [[⟨1, 1000, 5000, ['a']⟩], [⟨1, 1000, 3000, ['b']⟩]]
    (by decide) (by decide)

/-- Claim C6, counterexample: the claim states that a block with fewer
than two lines fails with a typed structural ParseError; in fact no
ParseError class exists in the program, and a single-line block dies
reading `each[1]` with the Python builtin IndexError. -/
theorem C6_counterexample :
    parseDoc (chars ("1")) = .error .indexError ∧
      parseDoc (chars ("1")) ≠ .error .parseError := by
  exact ⟨by decide, by decide⟩

/-- Claim C6 as amended: document parsing does fail on every malformed
shape the claim lists, but with Python builtin exceptions rather than a
typed ParseError (no such class exists): a block with exactly one line
and an integer first line raises IndexError at `each[1]`; a block whose
first line is not a valid integer propagates the ValueError of `int`
(evaluated before the line count is ever checked); a failing timecode on
the timestamp line propagates its own error (InvalidTimestringException,
as in the thirteen-character example); and a block with exactly two
lines, index plus timestamp, is accepted with empty text. -/
theorem C6_parse_failures :
    (∀ (block l0 : List Char) (n : Int), pySplit ['\n'] block = [l0] →
        pyInt l0 = .ok n → parseEntry block = .error .indexError) ∧
      (∀ (block : List Char) (er : PyErr),
          pyInt ((pySplit ['\n'] block).headD []) = .error er →
          parseEntry block = .error er) ∧
      (∀ (block l0 l1 : List Char) (rest : List (List Char)) (n : Int)
          (er : PyErr), pySplit ['\n'] block = l0 :: l1 :: rest →
          pyInt l0 = .ok n →
          mapTimecodes (pySplit ['-', '-', '>'] l1) = .error er →
          parseEntry block = .error er) ∧
      parseDoc (chars ("1")) = .error .indexError ∧
      parseDoc (chars ("1\n00:00:00,0000 --> 00:00:02,000")) =
        .error .invalidTimestring ∧
      parseDoc (chars ("1\n00:00:01,000 --> 00:00:02,000")) =
        .ok [⟨1, 1000, 2000, []⟩] := by
  refine ⟨?_, ?_, ?_, by decide, by decide, by decide⟩
  · intro block l0 n hps hidx
    unfold parseEntry
    rw [hps]
    simp only [List.headD_cons, hidx, Except.bind]
  · intro block er h
    unfold parseEntry
    simp only [h, Except.bind]
  · intro block l0 l1 rest n er hps hidx htc
    unfold parseEntry
    rw [hps]
    simp only [List.headD_cons, hidx, htc, Except.bind]

/-- Witness for C6: the single-line block 7 has a valid integer first
line and raises IndexError. -/
theorem C6_witness : parseEntry (chars ("7")) = .error .indexError :=
  C6_parse_failures.1 (chars ("7")) (chars ("7")) 7 (by decide) (by decide)

/-! Machinery for separators whose critical prefix is a doubled
character: the blank line separator and the arrow of the timestamp
line. -/

theorem occurs_pair_of_not_mem {x y : Char} {s : List Char} (h : x ∉ s) :
    occurs [x, y] s = false := by
  induction s with
  | nil => rfl
  | cons c cs ih =>
    simp only [List.mem_cons, not_or] at h
    simp only [occurs, Bool.or_eq_false_iff]
    refine ⟨?_, ih h.2⟩
    simp only [leadMatch, Bool.and_eq_false_iff]
    left
    exact beq_eq_false_iff_ne.mpr h.1

theorem occurs_cons (pat : List Char) (c : Char) (cs : List Char) :
    occurs pat (c :: cs) = (leadMatch pat (c :: cs) || occurs pat cs) := rfl

theorem occurs_of_append {p q s : List Char}
    (h : occurs (p ++ q) s = true) : occurs p s = true := by
  induction s with
  | nil =>
    simp only [occurs] at h ⊢
    exact leadMatch_of_append h
  | cons c cs ih =>
    simp only [occurs, Bool.or_eq_true] at h ⊢
    rcases h with h | h
    · exact Or.inl (leadMatch_of_append h)
    · exact Or.inr (ih h)

theorem occurs_xx_append {x : Char} {A B : List Char}
    (hA : occurs [x, x] A = false) (hB : occurs [x, x] B = false)
    (hlast : A.getLast? ≠ some x ∨ B.head? ≠ some x) :
    occurs [x, x] (A ++ B) = false := by
  induction A with
  | nil => simpa using hB
  | cons a A' ih =>
    simp only [occurs, Bool.or_eq_false_iff] at hA
    cases A' with
    | nil =>
      simp only [List.cons_append, List.nil_append, occurs,
        Bool.or_eq_false_iff]
      refine ⟨?_, hB⟩
      cases B with
      | nil => simp [leadMatch]
      | cons b B' =>
        simp only [leadMatch, Bool.and_eq_false_iff]
        rcases hlast with hl | hl
        · left
          exact beq_eq_false_iff_ne.mpr
            (fun heq => hl (by rw [List.getLast?_singleton, heq]))
        · right
          left
          exact beq_eq_false_iff_ne.mpr
            (fun heq => hl (by rw [List.head?_cons, heq]))
    | cons a' A'' =>
      simp only [List.cons_append, occurs, Bool.or_eq_false_iff]
      constructor
      · have := hA.1
        simp only [leadMatch, Bool.and_eq_false_iff] at this ⊢
        rcases this with h1 | h1
        · exact Or.inl h1
        · rcases h1 with h1 | h1
          · exact Or.inr (Or.inl h1)
          · cases h1
      · have hlast' : (a' :: A'').getLast? ≠ some x ∨ B.head? ≠ some x := by
          rcases hlast with hl | hl
          · left
            rw [getLast?_cons_ne a (by simp)] at hl
            exact hl
          · exact Or.inr hl
        have hthis : occurs [x, x] (a' :: (A'' ++ B)) = false :=
          ih hA.2 hlast'
        rw [occurs_cons, Bool.or_eq_false_iff] at hthis
        exact hthis

theorem drop_singleton_getLast? {a : List Char} {k : Nat} {c : Char}
    (h : a.drop k = [c]) : a.getLast? = some c := by
  have := List.take_append_drop k a
  rw [h] at this
  rw [← this, List.getLast?_concat]

theorem consume_H_xx {x : Char} {sep a : List Char} (r : List Char)
    (hpre : ∀ l, leadMatch sep l = true → leadMatch [x, x] l = true)
    (hsep0x : sep.head? = some x) (hocc : occurs [x, x] a = false)
    (hlast : a.getLast? ≠ some x) :
    ∀ k, k < a.length → leadMatch sep ((a ++ sep ++ r).drop k) = false := by
  intro k hk
  rw [List.append_assoc, List.drop_append_of_le_length (le_of_lt hk)]
  by_contra hcon
  rw [Bool.not_eq_false] at hcon
  have hxx := hpre _ hcon
  cases hd : a.drop k with
  | nil =>
    have := List.length_drop k a
    rw [hd] at this
    simp at this
    omega
  | cons c cs =>
    rw [hd] at hxx
    cases cs with
    | nil =>
      cases hsep : sep with
      | nil => rw [hsep] at hsep0x; cases hsep0x
      | cons s0 ss =>
        rw [hsep] at hsep0x hxx
        simp only [List.head?_cons, Option.some.injEq] at hsep0x
        subst hsep0x
        simp only [List.cons_append, List.singleton_append, leadMatch,
          Bool.and_eq_true, beq_iff_eq] at hxx
        exact hlast (by rw [drop_singleton_getLast? hd, hxx.1])
    | cons c' cs' =>
      have hfalse := occurs_false_drop hocc k
      rw [hd] at hfalse
      simp only [List.cons_append, leadMatch, Bool.and_eq_true,
        beq_iff_eq] at hxx hfalse
      simp only [Bool.and_eq_false_iff] at hfalse
      rcases hfalse with h1 | h1
      · rw [beq_eq_false_iff_ne] at h1
        exact h1 hxx.1
      · rcases h1 with h1 | h1
        · rw [beq_eq_false_iff_ne] at h1
          exact h1 hxx.2.1
        · cases h1

theorem pySplit_consume_xx {x : Char} {sep a : List Char} (r : List Char)
    (hs : 0 < sep.length)
    (hpre : ∀ l, leadMatch sep l = true → leadMatch [x, x] l = true)
    (hsep0x : sep.head? = some x) (hocc : occurs [x, x] a = false)
    (hlast : a.getLast? ≠ some x) :
    pySplit sep (a ++ sep ++ r) = a :: pySplit sep r :=
  pySplit_consume hs (consume_H_xx r hpre hsep0x hocc hlast)

/-! Character classification of the serialized pieces. -/

theorem head?_append_left {α : Type} {l l' : List α} (h : l ≠ []) :
    (l ++ l').head? = l.head? := by
  rw [List.head?_append]
  cases l with
  | nil => exact absurd rfl h
  | cons a as => rfl

theorem getLast?_append_right {α : Type} {l l' : List α} (h : l' ≠ []) :
    (l ++ l').getLast? = l'.getLast? := by
  rw [List.getLast?_append]
  cases hgl : l'.getLast? with
  | none => exact absurd (List.getLast?_eq_none_iff.mp hgl) h
  | some x => rfl

theorem bodyStr_chars (t : Nat) :
    ∀ c ∈ bodyStr t, c.isDigit = true ∨ c = ':' ∨ c = ',' := by
  intro c hc
  rw [bodyStr_assoc] at hc
  simp only [List.mem_append, List.mem_cons] at hc
  rcases hc with hc | hc | hc | hc | hc | hc
  · exact Or.inl (padLeft_all_digit 2 _ c hc)
  · exact Or.inr (Or.inl hc)
  · exact Or.inl (padLeft_all_digit 2 _ c hc)
  · exact Or.inr (Or.inl hc)
  · exact Or.inl (padLeft_all_digit 2 _ c hc)
  · rcases hc with hc | hc
    · exact Or.inr (Or.inr hc)
    · exact Or.inl (padLeft_all_digit 3 _ c hc)

theorem stringify_chars (m : Int) :
    ∀ c ∈ stringify m, c.isDigit = true ∨ c = ':' ∨ c = ',' ∨ c = '-' := by
  intro c hc
  rw [stringify_eq, List.mem_append] at hc
  rcases hc with hc | hc
  · split at hc
    · simp only [List.mem_singleton] at hc
      exact Or.inr (Or.inr (Or.inr hc))
    · simp at hc
  · rcases bodyStr_chars m.natAbs c hc with h | h | h
    · exact Or.inl h
    · exact Or.inr (Or.inl h)
    · exact Or.inr (Or.inr (Or.inl h))

theorem stringify_not_ws (m : Int) :
    ∀ c ∈ stringify m, pyWhitespace c = false := by
  intro c hc
  rcases stringify_chars m c hc with h | h | h | h
  · exact isDigit_not_ws h
  · subst h; decide
  · subst h; decide
  · subst h; decide

theorem stringify_ne_nil (m : Int) : stringify m ≠ [] := by
  rw [stringify_eq]
  intro h
  rcases List.append_eq_nil.mp h with ⟨-, h2⟩
  rw [bodyStr_assoc] at h2
  rcases List.append_eq_nil.mp h2 with ⟨h3, -⟩
  exact padLeft_ne_nil 2 _ h3

theorem stringify_getLast_digit (m : Int) :
    ∀ c, (stringify m).getLast? = some c → c.isDigit = true := by
  intro c hc
  rw [stringify_eq, bodyStr_assoc,
    getLast?_append_right (by simp),
    getLast?_append_right (by simp),
    getLast?_cons_ne _ (by simp),
    getLast?_append_right (by simp),
    getLast?_cons_ne _ (by simp),
    getLast?_append_right (by simp),
    getLast?_cons_ne _ (padLeft_ne_nil 3 _)] at hc
  exact padLeft_all_digit 3 _ c (getLast?_mem_local hc)

theorem stringify_head_not_nl (m : Int) :
    ∀ c, (stringify m).head? = some c → c ≠ '\n' := by
  intro c hc
  have := stringify_chars m c (head?_mem_local hc)
  rcases this with h | h | h | h <;>
    first
      | exact ne_of_isDigit h (by decide)
      | (subst h; decide)

theorem intStr_chars (i : Int) :
    ∀ c ∈ intStr i, c.isDigit = true ∨ c = '-' := by
  intro c hc
  unfold intStr at hc
  split at hc
  · rcases List.mem_cons.mp hc with hc | hc
    · exact Or.inr hc
    · exact Or.inl (natToDigits_all_digit _ c hc)
  · exact Or.inl (natToDigits_all_digit _ c hc)

theorem intStr_ne_nil (i : Int) : intStr i ≠ [] := by
  unfold intStr
  split
  · simp
  · exact natToDigits_ne_nil _

theorem intStr_getLast_digit (i : Int) :
    ∀ c, (intStr i).getLast? = some c → c.isDigit = true := by
  intro c hc
  unfold intStr at hc
  split at hc
  · rw [getLast?_cons_ne _ (natToDigits_ne_nil _)] at hc
    exact natToDigits_all_digit _ c (getLast?_mem_local hc)
  · exact natToDigits_all_digit _ c (getLast?_mem_local hc)

theorem intStr_not_ws (i : Int) :
    ∀ c ∈ intStr i, pyWhitespace c = false := by
  intro c hc
  rcases intStr_chars i c hc with h | h
  · exact isDigit_not_ws h
  · subst h; decide

/-! The timestamp line splits back into its two timecodes. -/

theorem bodyStr_ne_nil (t : Nat) : bodyStr t ≠ [] := by
  rw [bodyStr_assoc]
  intro h
  rcases List.append_eq_nil.mp h with ⟨h1, -⟩
  exact padLeft_ne_nil 2 _ h1

theorem occurs_dd_stringify (m : Int) :
    occurs ['-', '-'] (stringify m) = false := by
  have hbody : '-' ∉ bodyStr m.natAbs := by
    intro hm
    rcases bodyStr_chars m.natAbs '-' hm with h | h | h
    · exact absurd h (by decide)
    · cases h
    · cases h
  rw [stringify_eq]
  by_cases hm : m < 0
  · rw [if_pos hm, List.singleton_append]
    cases hb : bodyStr m.natAbs with
    | nil => exact absurd hb (bodyStr_ne_nil _)
    | cons c0 rest =>
      have hc0 : c0.isDigit = true :=
        bodyStr_head_digit _ c0 (by rw [hb]; rfl)
      rw [occurs_cons, Bool.or_eq_false_iff]
      constructor
      · show (('-' == '-') && leadMatch ['-'] (c0 :: rest)) = false
        show (('-' == '-') && (('-' == c0) && leadMatch [] rest)) = false
        rw [show (('-' : Char) == c0) = false from
          beq_eq_false_iff_ne.mpr (fun heq =>
            (ne_of_isDigit hc0 (by decide)) heq.symm)]
        simp
      · rw [← hb]
        exact occurs_pair_of_not_mem hbody
  · rw [if_neg hm, List.nil_append]
    exact occurs_pair_of_not_mem hbody

theorem occurs_dd_stringify_space (m : Int) :
    occurs ['-', '-'] (stringify m ++ [' ']) = false := by
  apply occurs_xx_append (occurs_dd_stringify m) (by decide)
  right
  simp only [List.head?_cons, ne_eq, Option.some.injEq]
  decide

theorem occurs_dd_space_stringify (m : Int) :
    occurs ['-', '-'] (' ' :: stringify m) = false := by
  rw [occurs_cons, Bool.or_eq_false_iff]
  constructor
  · cases hs : stringify m with
    | nil => simp [leadMatch]
    | cons c0 rest =>
      show (('-' == ' ') && _) = false
      rw [show (('-' : Char) == ' ') = false from by decide, Bool.false_and]
  · exact occurs_dd_stringify m

theorem occurs_arrow_space_stringify (m : Int) :
    occurs ['-', '-', '>'] (' ' :: stringify m) = false := by
  by_contra h
  rw [Bool.not_eq_false] at h
  have : occurs ['-', '-'] (' ' :: stringify m) = true :=
    occurs_of_append (p := ['-', '-']) (q := ['>']) h
  rw [occurs_dd_space_stringify m] at this
  cases this

theorem TL_split (s e : Int) :
    pySplit ['-', '-', '>']
      (stringify s ++ [' ', '-', '-', '>', ' '] ++ stringify e) =
      [stringify s ++ [' '], ' ' :: stringify e] := by
  have harr : stringify s ++ [' ', '-', '-', '>', ' '] ++ stringify e =
      (stringify s ++ [' ']) ++ ['-', '-', '>'] ++ (' ' :: stringify e) := by
    simp [List.append_assoc]
  have hpre : ∀ l, leadMatch ['-', '-', '>'] l = true →
      leadMatch ['-', '-'] l = true := by
    intro l h
    exact leadMatch_of_append (p := ['-', '-']) (q := ['>']) (by exact h)
  rw [harr,
    pySplit_consume_xx (' ' :: stringify e) (by simp) hpre
      rfl (occurs_dd_stringify_space s)
      (by rw [List.getLast?_concat]; simp),
    pySplit_no_occur (occurs_arrow_space_stringify e)]

theorem pyStrip_append_space {s : List Char}
    (h1 : ∀ c, s.head? = some c → pyWhitespace c = false)
    (h2 : ∀ c, s.getLast? = some c → pyWhitespace c = false) :
    pyStrip (s ++ [' ']) = s := by
  unfold pyStrip
  cases s with
  | nil => decide
  | cons c cs =>
    have hd : ((c :: cs) ++ [' ']).dropWhile pyWhitespace =
        (c :: cs) ++ [' '] := by
      rw [List.cons_append, List.dropWhile_cons, if_neg]
      rw [h1 c rfl]
      simp
    rw [hd]
    have hrev : ((c :: cs) ++ [' ']).reverse = ' ' :: (c :: cs).reverse := by
      simp
    rw [hrev, List.dropWhile_cons, if_pos (by decide)]
    have hlast : (c :: cs).reverse.dropWhile pyWhitespace =
        (c :: cs).reverse := by
      cases hr : (c :: cs).reverse with
      | nil => rfl
      | cons x xs =>
        rw [List.dropWhile_cons, if_neg]
        have : (c :: cs).getLast? = some x := by
          rw [List.getLast?_eq_head?_reverse, hr]
          rfl
        rw [h2 x this]
        simp
    rw [hlast, List.reverse_reverse]

theorem pyStrip_cons_space {s : List Char}
    (h1 : ∀ c, s.head? = some c → pyWhitespace c = false)
    (h2 : ∀ c, s.getLast? = some c → pyWhitespace c = false) :
    pyStrip (' ' :: s) = s := by
  have : pyStrip (' ' :: s) = pyStrip s := by
    unfold pyStrip
    rw [List.dropWhile_cons, if_pos (by decide)]
  rw [this]
  exact pyStrip_noop h1 h2

theorem mapTimecodes_TL {s e : Int} (hs : s.natAbs < 360000000)
    (he : e.natAbs < 360000000) :
    mapTimecodes [stringify s ++ [' '], ' ' :: stringify e] =
      .ok [s, e] := by
  simp only [mapTimecodes]
  rw [pyStrip_append_space
      (fun c hc => stringify_not_ws s c (head?_mem_local hc))
      (fun c hc => stringify_not_ws s c (getLast?_mem_local hc)),
    parseTimecode_stringify hs,
    pyStrip_cons_space
      (fun c hc => stringify_not_ws e c (head?_mem_local hc))
      (fun c hc => stringify_not_ws e c (getLast?_mem_local hc)),
    parseTimecode_stringify he]
  rfl

theorem no_nl_stringify (m : Int) : '\n' ∉ stringify m := by
  intro hm
  rcases stringify_chars m '\n' hm with h | h | h | h <;>
    exact absurd h (by decide)

theorem no_nl_intStr (i : Int) : '\n' ∉ intStr i := by
  intro hm
  rcases intStr_chars i '\n' hm with h | h <;> exact absurd h (by decide)

theorem no_nl_TL (s e : Int) :
    '\n' ∉ (stringify s ++ [' ', '-', '-', '>', ' '] ++ stringify e) := by
  intro hm
  simp only [List.mem_append, List.mem_cons, List.not_mem_nil,
    or_false] at hm
  rcases hm with (hm | hm | hm | hm | hm | hm) | hm
  · exact no_nl_stringify s hm
  all_goals first
    | exact absurd hm (by decide)
    | exact no_nl_stringify e hm

theorem parseEntry_entryStr {e : SubEntry} (h : okEntry e) :
    parseEntry (entryStr e) = .ok e := by
  obtain ⟨-, hstart, hend⟩ := h
  have h1 : entryStr e =
      intStr e.index ++ '\n' ::
        ((stringify e.start ++ [' ', '-', '-', '>', ' '] ++
            stringify e.endTime) ++ '\n' :: e.text) := by
    unfold entryStr
    simp [List.append_assoc]
  have hlines : pySplit ['\n'] (entryStr e) =
      intStr e.index ::
        (stringify e.start ++ [' ', '-', '-', '>', ' '] ++
          stringify e.endTime) :: pySplit ['\n'] e.text := by
    rw [h1, pySplit_single _ (no_nl_intStr e.index),
      pySplit_single _ (no_nl_TL e.start e.endTime)]
  unfold parseEntry
  rw [hlines]
  simp only [List.headD_cons, pyInt_intStr, Except.bind,
    List.drop_succ_cons, List.drop_zero]
  rw [TL_split, mapTimecodes_TL hstart hend]
  simp only [Except.bind]
  rw [joinWith_pySplit]

theorem okText_spec {t : List Char} (h : okText t = true) :
    t ≠ [] ∧ '\r' ∉ t ∧ occurs ['\n', '\n'] t = false ∧
      t.head? ≠ some '\n' ∧
      ∀ c, t.getLast? = some c → pyWhitespace c = false := by
  unfold okText at h
  simp only [Bool.and_eq_true] at h
  obtain ⟨⟨⟨⟨h1, h2⟩, h3⟩, h4⟩, h5⟩ := h
  refine ⟨?_, ?_, ?_, ?_, ?_⟩
  · intro hnil
    subst hnil
    simp at h1
  · intro hm
    have := List.all_eq_true.mp h2 _ hm
    simp at this
  · rw [Bool.not_eq_true'] at h3
    exact h3
  · intro heq
    rw [heq] at h4
    simp at h4
  · intro c hc
    rw [hc] at h5
    rw [Bool.not_eq_true'] at h5
    exact h5

theorem occurs_nn_cons_nl {s : List Char} (hh : s.head? ≠ some '\n')
    (ho : occurs ['\n', '\n'] s = false) :
    occurs ['\n', '\n'] ('\n' :: s) = false := by
  rw [occurs_cons, Bool.or_eq_false_iff]
  refine ⟨?_, ho⟩
  cases s with
  | nil => simp [leadMatch]
  | cons c cs =>
    show (('\n' == '\n') && (('\n' == c) && leadMatch [] cs)) = false
    rw [show (('\n' : Char) == c) = false from
      beq_eq_false_iff_ne.mpr (fun heq => hh (by rw [List.head?_cons, ← heq]))]
    simp

theorem TL_ne_nil (s e : Int) :
    (stringify s ++ [' ', '-', '-', '>', ' '] ++ stringify e) ≠ [] := by
  intro h
  rcases List.append_eq_nil.mp h with ⟨h1, -⟩
  rcases List.append_eq_nil.mp h1 with ⟨h2, -⟩
  exact stringify_ne_nil s h2

theorem TL_head_not_nl (s e : Int) :
    (stringify s ++ [' ', '-', '-', '>', ' '] ++ stringify e).head? ≠
      some '\n' := by
  rw [head?_append_left (by
      intro h
      rcases List.append_eq_nil.mp h with ⟨h1, -⟩
      exact stringify_ne_nil s h1),
    head?_append_left (stringify_ne_nil s)]
  intro h
  exact stringify_head_not_nl s '\n' h rfl

theorem TL_getLast_digit (s e : Int) :
    ∀ c, (stringify s ++ [' ', '-', '-', '>', ' '] ++
      stringify e).getLast? = some c → c.isDigit = true := by
  intro c hc
  rw [getLast?_append_right (stringify_ne_nil e)] at hc
  exact stringify_getLast_digit e c hc

theorem occurs_nn_entryStr {e : SubEntry} (ht : okText e.text = true) :
    occurs ['\n', '\n'] (entryStr e) = false := by
  obtain ⟨-, -, hnn, hhd, -⟩ := okText_spec ht
  have h1 : entryStr e =
      intStr e.index ++ '\n' ::
        ((stringify e.start ++ [' ', '-', '-', '>', ' '] ++
            stringify e.endTime) ++ '\n' :: e.text) := by
    unfold entryStr
    simp [List.append_assoc]
  rw [h1]
  apply occurs_xx_append
  · exact occurs_pair_of_not_mem (no_nl_intStr e.index)
  · apply occurs_nn_cons_nl
    · rw [head?_append_left (TL_ne_nil e.start e.endTime)]
      exact TL_head_not_nl e.start e.endTime
    · apply occurs_xx_append
      · exact occurs_pair_of_not_mem (no_nl_TL e.start e.endTime)
      · exact occurs_nn_cons_nl hhd hnn
      · left
        intro hl
        exact absurd (TL_getLast_digit e.start e.endTime '\n' hl) (by decide)
  · left
    intro hl
    exact absurd (intStr_getLast_digit e.index '\n' hl) (by decide)

theorem entryStr_ne_nil (e : SubEntry) : entryStr e ≠ [] := by
  unfold entryStr
  intro h
  rcases List.append_eq_nil.mp h with ⟨h1, -⟩
  rcases List.append_eq_nil.mp h1 with ⟨h2, -⟩
  rcases List.append_eq_nil.mp h2 with ⟨h3, -⟩
  rcases List.append_eq_nil.mp h3 with ⟨h4, -⟩
  exact intStr_ne_nil e.index h4

theorem entryStr_getLast {e : SubEntry} (hne : e.text ≠ []) :
    (entryStr e).getLast? = e.text.getLast? := by
  unfold entryStr
  rw [getLast?_append_right (by simp), getLast?_cons_ne _ hne]

theorem entryStr_head? (e : SubEntry) :
    (entryStr e).head? = (intStr e.index).head? := by
  unfold entryStr
  have hi := intStr_ne_nil e.index
  rw [head?_append_left (by simp [hi]), head?_append_left (by simp [hi]),
    head?_append_left (by simp [hi]), head?_append_left hi]

theorem pySplit_nn_join :
    ∀ bs : List (List Char), bs ≠ [] →
      (∀ b ∈ bs, occurs ['\n', '\n'] b = false ∧ b.getLast? ≠ some '\n') →
      pySplit ['\n', '\n'] (joinWith ['\n', '\n'] bs) = bs := by
  intro bs
  induction bs with
  | nil => intro h; exact absurd rfl h
  | cons b bs' ih =>
    intro _ hcond
    cases bs' with
    | nil =>
      show pySplit ['\n', '\n'] b = [b]
      exact pySplit_no_occur (hcond b (by simp)).1
    | cons b1 bs'' =>
      rw [joinWith_cons_ne _ _ (by simp),
        pySplit_consume_xx (joinWith ['\n', '\n'] (b1 :: bs''))
          (by simp) (fun l h => h) rfl (hcond b (by simp)).1
          (hcond b (by simp)).2,
        ih (by simp) (fun x hx => hcond x (by simp [hx]))]

theorem joinWith_getLast? {sep : List Char} :
    ∀ (bs : List (List Char)) (b : List Char), bs.getLast? = some b →
      b ≠ [] → (joinWith sep bs).getLast? = b.getLast? := by
  intro bs
  induction bs with
  | nil => intro b h; simp at h
  | cons b0 bs' ih =>
    intro b hb hbne
    cases bs' with
    | nil =>
      simp only [List.getLast?_singleton, Option.some.injEq] at hb
      subst hb
      rfl
    | cons b1 bs'' =>
      rw [getLast?_cons_ne _ (by simp)] at hb
      have hj := ih b hb hbne
      have hjne : joinWith sep (b1 :: bs'') ≠ [] := by
        intro hnil
        rw [hnil] at hj
        cases hgl : b.getLast? with
        | none => exact hbne (List.getLast?_eq_none_iff.mp hgl)
        | some x => rw [hgl] at hj; cases hj
      rw [joinWith_cons_ne _ _ (by simp), getLast?_append_right hjne]
      exact hj

theorem joinWith_head?_ne {sep b0 : List Char} (bs' : List (List Char))
    (h : b0 ≠ []) : (joinWith sep (b0 :: bs')).head? = b0.head? := by
  cases bs' with
  | nil => rfl
  | cons b1 bs'' =>
    rw [joinWith_cons_ne _ _ (by simp), head?_append_left (by simp [h]),
      head?_append_left h]

theorem mem_joinWith {c : Char} {sep : List Char} :
    ∀ {bs : List (List Char)}, c ∈ joinWith sep bs →
      (∃ b ∈ bs, c ∈ b) ∨ c ∈ sep := by
  intro bs
  induction bs with
  | nil => intro h; simp [joinWith] at h
  | cons b0 bs' ih =>
    intro h
    cases bs' with
    | nil => exact Or.inl ⟨b0, by simp, h⟩
    | cons b1 bs'' =>
      rw [joinWith_cons_ne _ _ (by simp)] at h
      rcases List.mem_append.mp h with h | h
      · rcases List.mem_append.mp h with h | h
        · exact Or.inl ⟨b0, by simp, h⟩
        · exact Or.inr h
      · rcases ih h with ⟨b, hb, hcb⟩ | h
        · exact Or.inl ⟨b, by simp [hb], hcb⟩
        · exact Or.inr h

theorem pyReplace_noop {pat rep s : List Char}
    (h : occurs pat s = false) : pyReplace pat rep s = s := by
  unfold pyReplace
  rw [pySplit_no_occur h]
  rfl

theorem no_cr_stringify (m : Int) : '\r' ∉ stringify m := by
  intro hm
  rcases stringify_chars m '\r' hm with h | h | h | h <;>
    exact absurd h (by decide)

theorem no_cr_intStr (i : Int) : '\r' ∉ intStr i := by
  intro hm
  rcases intStr_chars i '\r' hm with h | h <;> exact absurd h (by decide)

theorem entryStr_chars {e : SubEntry} :
    ∀ c ∈ entryStr e, c ∈ intStr e.index ∨ c ∈ stringify e.start ∨
      c ∈ stringify e.endTime ∨ c ∈ e.text ∨ c = '\n' ∨ c = ' ' ∨
      c = '-' ∨ c = '>' := by
  intro c hc
  unfold entryStr at hc
  rcases List.mem_append.mp hc with h | h
  · rcases List.mem_append.mp h with h | h
    · rcases List.mem_append.mp h with h | h
      · rcases List.mem_append.mp h with h | h
        · exact Or.inl h
        · rcases List.mem_cons.mp h with h | h
          · exact Or.inr (Or.inr (Or.inr (Or.inr (Or.inl h))))
          · exact Or.inr (Or.inl h)
      · simp only [List.mem_cons, List.not_mem_nil, or_false] at h
        rcases h with h | h | h | h | h
        · exact Or.inr (Or.inr (Or.inr (Or.inr (Or.inr (Or.inl h)))))
        · exact Or.inr (Or.inr (Or.inr (Or.inr (Or.inr (Or.inr (Or.inl h))))))
        · exact Or.inr (Or.inr (Or.inr (Or.inr (Or.inr (Or.inr (Or.inl h))))))
        · exact Or.inr (Or.inr (Or.inr (Or.inr (Or.inr (Or.inr (Or.inr h))))))
        · exact Or.inr (Or.inr (Or.inr (Or.inr (Or.inr (Or.inl h)))))
    · exact Or.inr (Or.inr (Or.inl h))
  · rcases List.mem_cons.mp h with h | h
    · exact Or.inr (Or.inr (Or.inr (Or.inr (Or.inl h))))
    · exact Or.inr (Or.inr (Or.inr (Or.inl h)))

theorem no_cr_entryStr {e : SubEntry} (ht : '\r' ∉ e.text) :
    '\r' ∉ entryStr e := by
  intro hm
  rcases entryStr_chars '\r' hm with h | h | h | h | h | h | h | h
  · exact no_cr_intStr e.index h
  · exact no_cr_stringify e.start h
  · exact no_cr_stringify e.endTime h
  · exact ht h
  all_goals exact absurd h (by decide)

theorem parseBlocks_map {d : List SubEntry} (h : ∀ e ∈ d, okEntry e) :
    parseBlocks (d.map entryStr) = .ok d := by
  induction d with
  | nil => rfl
  | cons e es ih =>
    simp only [List.map_cons, parseBlocks,
      parseEntry_entryStr (h e (by simp)), Except.bind,
      ih (fun x hx => h x (by simp [hx]))]

/-- Claim C3, counterexample: the claim quantifies over every document
whose text has zero or more lines, but an entry with EMPTY text followed
by another entry serializes to three consecutive newlines; the blank
line splitter then cuts one character early, the next block starts with
an empty line, and re-parsing dies in `int` with a ValueError instead of
recovering the document. -/
theorem C3_counterexample :
    parseDoc (serializeDoc [⟨1, 0, 1000, []⟩, ⟨2, 2000, 3000, ['x']⟩]) =
        .error .valueError ∧
      parseDoc (serializeDoc [⟨1, 0, 1000, []⟩, ⟨2, 2000, 3000, ['x']⟩]) ≠
        .ok [⟨1, 0, 1000, []⟩, ⟨2, 2000, 3000, ['x']⟩] := by
  exact ⟨by decide, by decide⟩

/-- Claim C3 as amended: parsing the serialization of a document returns
an equal document (same entries, with index, start, end and text all
equal) for every nonempty document whose entries satisfy `okEntry`:
every text is nonempty, free of carriage returns and of two consecutive
newlines, does not start with a newline and does not end in whitespace,
and every timecode is below one hundred hours in magnitude.  Outside
these conditions the round trip can fail, as the counterexample shows
for an empty text (and as C2 shows for oversized timecodes). -/
theorem C3_doc_roundtrip :
    ∀ d : List SubEntry, d ≠ [] → (∀ e ∈ d, okEntry e) →
      parseDoc (serializeDoc d) = .ok d := by
  intro d hne hok
  obtain ⟨e0, d', rfl⟩ : ∃ e0 d', d = e0 :: d' := by
    cases d with
    | nil => exact absurd rfl hne
    | cons a l => exact ⟨a, l, rfl⟩
  have hblocks : ∀ b ∈ (e0 :: d').map entryStr,
      occurs ['\n', '\n'] b = false ∧ b.getLast? ≠ some '\n' := by
    intro b hb
    rcases List.mem_map.mp hb with ⟨e, he, rfl⟩
    obtain ⟨ht, -, -⟩ := hok e he
    obtain ⟨htne, -, -, -, hlast⟩ := okText_spec ht
    refine ⟨occurs_nn_entryStr ht, ?_⟩
    rw [entryStr_getLast htne]
    intro hl
    exact absurd (hlast '\n' hl) (by decide)
  have hserial : serializeDoc (e0 :: d') =
      joinWith ['\n', '\n'] ((e0 :: d').map entryStr) := rfl
  have hhead : ∀ c, (serializeDoc (e0 :: d')).head? = some c →
      pyWhitespace c = false := by
    intro c hc
    rw [hserial, List.map_cons,
      joinWith_head?_ne _ (entryStr_ne_nil e0), entryStr_head? e0] at hc
    exact intStr_not_ws e0.index c (head?_mem_local hc)
  have htail : ∀ c, (serializeDoc (e0 :: d')).getLast? = some c →
      pyWhitespace c = false := by
    intro c hc
    obtain ⟨elast, hel⟩ : ∃ elast, (e0 :: d').getLast? = some elast := by
      cases hgl : (e0 :: d').getLast? with
      | none => exact absurd (List.getLast?_eq_none_iff.mp hgl) (by simp)
      | some x => exact ⟨x, rfl⟩
    obtain ⟨ht, -, -⟩ := hok elast (getLast?_mem_local hel)
    obtain ⟨htne, -, -, -, hlw⟩ := okText_spec ht
    have hmgl : ((e0 :: d').map entryStr).getLast? =
        some (entryStr elast) := by
      rw [List.getLast?_map, hel]
      rfl
    rw [hserial, joinWith_getLast? _ _ hmgl (entryStr_ne_nil elast),
      entryStr_getLast htne] at hc
    exact hlw c hc
  have hcr : '\r' ∉ serializeDoc (e0 :: d') := by
    intro hm
    rw [hserial] at hm
    rcases mem_joinWith hm with ⟨b, hb, hcb⟩ | hsep
    · rcases List.mem_map.mp hb with ⟨e, he, rfl⟩
      obtain ⟨ht, -, -⟩ := hok e he
      obtain ⟨-, htcr, -, -, -⟩ := okText_spec ht
      exact no_cr_entryStr htcr hcb
    · exact absurd hsep (by decide)
  unfold parseDoc
  rw [pyStrip_noop hhead htail,
    pyReplace_noop (occurs_pair_of_not_mem hcr), hserial,
    pySplit_nn_join _ (by simp) hblocks, parseBlocks_map hok]

/-- Witness for C3: a concrete two-entry document with good texts
survives the round trip. -/
theorem C3_witness :
    parseDoc (serializeDoc
        [⟨1, 1000, 2000, ['h', 'i']⟩, ⟨2, 2500, 3500, ['y', 'o']⟩]) =
      .ok [⟨1, 1000, 2000, ['h', 'i']⟩, ⟨2, 2500, 3500, ['y', 'o']⟩] :=
  C3_doc_roundtrip
    [⟨1, 1000, 2000, ['h', 'i']⟩, ⟨2, 2500, 3500, ['y', 'o']⟩]
    (by decide)
    (by intro e he; constructor
        · rcases List.mem_cons.mp he with h | h
          · subst h; decide
          · rcases List.mem_cons.mp h with h | h
            · subst h; decide
            · simp at h
        · rcases List.mem_cons.mp he with h | h
          · subst h; exact ⟨by decide, by decide⟩
          · rcases List.mem_cons.mp h with h | h
            · subst h; exact ⟨by decide, by decide⟩
            · simp at h)
